import Mathlib

/-!
# Hook.js (tapable): tap ordering, interceptor pipeline, lazy call cache

A shallow embedding of `src/lib/Hook.js`.

* A JavaScript array of tap descriptors is a `List Slot`, where a slot is
  either a descriptor object (`some t`) or the value `undefined` (`none`);
  `arrayGet` and `arraySet` are the element read and element assignment of
  JavaScript arrays (a read past the end gives `undefined`, an assignment at
  or past the end grows the array).
* Methods of `Hook` mutate `this`; they are embedded as functions from the
  state before the call to the state after it, paired with the thrown
  error, if any.  An exception does not roll the state back.
* `compile` is abstract in the source; the functions that reach it take
  the compiler as an argument.
-/

namespace Tapable

/-! ## Data model -/

/-- Errors thrown by the code: `new Error(msg)`, the `TypeError` of a
property read on `undefined`, and whatever the external compiler throws. -/
inductive JsError where
  | error (msg : String)
  | typeError
  | compilerFailure (code : Nat)
  deriving DecidableEq, Repr

/-- The value of the `before` field of a descriptor, by the two tests of
`_insert`: `typeof item.before === "string"`, `Array.isArray(item.before)`,
or neither (the field is missing). -/
inductive Before where
  | absent
  | str (name : String)
  | arr (names : List String)
  deriving DecidableEq, Repr

/-- Handlers are opaque callables; only their identity matters here. -/
abbrev Fn := Nat

/-- A tap descriptor: the object built by `_tap` and stored in `taps`.
`stage` is `none` when the field is missing, otherwise an integer.
`extra` holds the remaining caller-supplied fields. -/
structure Tap where
  type : String
  fn : Fn
  name : String
  stage : Option Int := none
  before : Before := Before.absent
  extra : List (String × String) := []
  deriving DecidableEq, Repr

/-- One element of the `taps` array: a descriptor or `undefined`. -/
abbrev Slot := Option Tap

/-- Array read `a[i]`: `undefined` when `i` is outside the array. -/
def arrayGet (a : List Slot) (i : Nat) : Slot :=
  match a.get? i with
  | some s => s
  | none => none

/-- Array assignment `a[i] = v`: overwrites inside the array, and grows the
array (leaving holes, which read as `undefined`) at or past its end. -/
def arraySet (a : List Slot) (i : Nat) (v : Slot) : List Slot :=
  if i < a.length then a.set i v
  else a ++ List.replicate (i - a.length) none ++ [v]

/-- The working set `before` of `_insert`: `none` is the JavaScript
`undefined` (no set was built), `some names` is a `Set` holding `names`. -/
abbrev NameSet := Option (List String)

/-- Lines 168-173 of `_insert`: the set built from `item.before`. -/
def beforeSet (item : Tap) : NameSet :=
  match item.before with
  | Before.str s => some [s]
  | Before.arr names => some names
  | Before.absent => none

/-- Lines 176-179 of `_insert`: `item.stage` when it is a number, else 0. -/
def itemStage (item : Tap) : Int :=
  match item.stage with
  | some n => n
  | none => 0

/-- Line 190 of `_insert`: `x.stage || 0`. -/
def xStageOf (x : Tap) : Int :=
  match x.stage with
  | some n => if n = 0 then 0 else n
  | none => 0

/-- The `while (i > 0)` loop of `_insert` (lines 183-212).  The first
argument is the loop variable `i` on entry to the test; the result is the
array after the shifts and the final value of `i`, or the `TypeError`
thrown by `x.stage` when `x` is `undefined`. -/
def insertLoop (stage : Int) : Nat → List Slot → NameSet → List Slot × Except JsError Nat
  | 0, taps, _ => (taps, Except.ok 0)
  | i + 1, taps, before =>
    let x := arrayGet taps i
    let taps := arraySet taps (i + 1) x
    match x with
    | none => (taps, Except.error JsError.typeError)
    | some x =>
      let xStage := xStageOf x
      match before with
      | some names =>
        if names.contains x.name then
          insertLoop stage i taps (some (names.filter (fun n => n != x.name)))
        else if names.length > 0 then
          insertLoop stage i taps (some names)
        else if xStage > stage then
          insertLoop stage i taps (some names)
        else (taps, Except.ok (i + 1))
      | none =>
        if xStage > stage then
          insertLoop stage i taps none
        else (taps, Except.ok (i + 1))

/-- Lines 167-215 of `_insert`, on the array alone: the new array and the
error thrown, if any. -/
def insertInto (taps : List Slot) (item : Tap) : List Slot × Option JsError :=
  match insertLoop (itemStage item) taps.length taps (beforeSet item) with
  | (taps1, Except.ok i) => (arraySet taps1 i (some item), none)
  | (taps1, Except.error e) => (taps1, some e)

/-- The index at which `_insert` stores the item (the value of `i` at
line 215); 0 when the loop throws. -/
def insertIndex (taps : List Slot) (item : Tap) : Nat :=
  match (insertLoop (itemStage item) taps.length taps (beforeSet item)).2 with
  | Except.ok i => i
  | Except.error _ => 0

/-! ## The hook object -/

/-- Arguments and results of the call entry points. -/
abbrev Val := Int

/-- An interceptor object: `register` is what the property read
`interceptor.register` finds, own or inherited (the capability receives an
element of `taps` or a candidate descriptor and returns a descriptor or
`undefined`); `registerOwn` tells whether that property is an own
enumerable property of the object rather than one inherited from its
prototype; `rest` stands for its own enumerable properties other than
`register`, which this file of the source never reads. -/
structure Interceptor where
  register : Option (Slot → Slot)
  rest : Nat := 0
  registerOwn : Bool := true

/-- The object `Object.assign` builds from an empty object and the
interceptor, line 144: it holds the own enumerable properties of the
interceptor and none of the inherited ones. -/
def Interceptor.copy (i : Interceptor) : Interceptor :=
  { register := if i.registerOwn then i.register else none
    rest := i.rest
    registerOwn := true }

/-- The object `_createCall` passes to `compile`. -/
structure CompileOptions where
  taps : List Slot
  interceptors : List Interceptor
  args : List String
  type : String

/-- What `compile` returns: a function of the call arguments. -/
structure Invocable where
  run : List Val → Val

/-- The functions a call entry point can hold: one of the three module-level
delegates, or an invocable returned by `compile`. -/
inductive Entry where
  | CALL_DELEGATE
  | CALL_ASYNC_DELEGATE
  | PROMISE_DELEGATE
  | compiled (f : Invocable)

/-- The fields of a `Hook` instance (`_x` is never read or written after
construction and is left out). -/
structure Hook where
  _args : List String
  name : Option String
  taps : List Slot
  interceptors : List Interceptor
  _call : Entry
  call : Entry
  _callAsync : Entry
  callAsync : Entry
  _promise : Entry
  promise : Entry

/-- The external compiler: `compile(options)` returns an invocable or throws. -/
abbrev Compiler := CompileOptions → Except JsError Invocable

/-- The constructor `new Hook(args, name)`, lines 26-43. -/
def Hook.new (args : List String := []) (name : Option String := none) : Hook :=
  { _args := args
    name := name
    taps := []
    interceptors := []
    _call := Entry.CALL_DELEGATE
    call := Entry.CALL_DELEGATE
    _callAsync := Entry.CALL_ASYNC_DELEGATE
    callAsync := Entry.CALL_ASYNC_DELEGATE
    _promise := Entry.PROMISE_DELEGATE
    promise := Entry.PROMISE_DELEGATE }

/-- The base-class method `compile`, lines 46-48: it always throws. -/
def Hook.compile : Compiler :=
  fun _ => Except.error (JsError.error "Abstract: should be overridden")

/-- The argument `_createCall(type)` builds for `compile`, lines 52-57. -/
def Hook.compileOptions (h : Hook) (type : String) : CompileOptions :=
  { taps := h.taps, interceptors := h.interceptors, args := h._args, type := type }

/-- Method `_createCall`, lines 51-58. -/
def Hook._createCall (compile : Compiler) (h : Hook) (type : String) : Except JsError Invocable :=
  compile (h.compileOptions type)

/-- Method `_resetCompilation`, lines 156-160. -/
def Hook._resetCompilation (h : Hook) : Hook :=
  { h with call := h._call, callAsync := h._callAsync, promise := h._promise }

/-- Method `_insert`, lines 164-216: the state after the call and the error
thrown, if any. -/
def Hook._insert (h : Hook) (item : Tap) : Hook × Option JsError :=
  let h1 := h._resetCompilation
  let r := insertInto h1.taps item
  ({ h1 with taps := r.1 }, r.2)

/-- Method `_runRegisterInterceptors`, lines 104-117, as a loop over the
interceptors that remain to be visited. -/
def runRegisterLoop : List Interceptor → Tap → Tap
  | [], options => options
  | interceptor :: more, options =>
    match interceptor.register with
    | some register =>
      match register (some options) with
      | some newOptions => runRegisterLoop more newOptions
      | none => runRegisterLoop more options
    | none => runRegisterLoop more options

/-- Method `_runRegisterInterceptors`, lines 104-117. -/
def Hook._runRegisterInterceptors (h : Hook) (options : Tap) : Tap :=
  runRegisterLoop h.interceptors options

/-! ## Registration -/

/-- An options object passed to `tap`: `name` is `none` when the field is
missing or does not hold a string; `type` and `fn` are `none` when the
object has no such field; `extra` holds every other field (a legacy
`context` field among them, whose only effect is a deprecation notice).
`nameNotString` is read only when `name` is `none`: it tells that the
object does have a `name` field, holding a value that is not a string. -/
structure OptionsObject where
  name : Option String := none
  type : Option String := none
  fn : Option Fn := none
  stage : Option Int := none
  before : Before := Before.absent
  extra : List (String × String) := []
  nameNotString : Bool := false
  deriving DecidableEq, Repr

/-- The `options` argument of `tap`, by the tests of `_tap`: a string, a
non-null object, `null`, or a value whose `typeof` is neither `"string"` nor
`"object"` (a number, a boolean, `undefined`, a function). -/
inductive TapOptions where
  | str (s : String)
  | obj (o : OptionsObject)
  | null
  | other
  deriving DecidableEq, Repr

/-- The code points `String.prototype.trim` removes: the WhiteSpace and
LineTerminator productions of ECMAScript. -/
def isTrimChar (c : Char) : Bool :=
  let n := c.toNat
  n == 0x09 || n == 0x0A || n == 0x0B || n == 0x0C || n == 0x0D || n == 0x20
    || n == 0xA0 || n == 0x1680 || (0x2000 ≤ n && n ≤ 0x200A)
    || n == 0x2028 || n == 0x2029 || n == 0x202F || n == 0x205F
    || n == 0x3000 || n == 0xFEFF

/-- JavaScript's `String.prototype.trim`. -/
def jsTrim (s : String) : String :=
  String.mk (((s.toList.dropWhile isTrimChar).reverse.dropWhile isTrimChar).reverse)

/-- Line 87 of `_tap`: `Object.assign` of the object holding `type` and `fn` with `options`, for an
options object whose name is the string `name`. -/
def assignTypeFn (type : String) (fn : Fn) (o : OptionsObject) (name : String) : Tap :=
  { type := match o.type with
      | some t => t
      | none => type
    fn := match o.fn with
      | some f => f
      | none => fn
    name := name
    stage := o.stage
    before := o.before
    extra := o.extra }

/-- Lines 69-87 of `_tap`: validation of `options` and the candidate
descriptor, or the error thrown. -/
def candidate (type : String) (options : TapOptions) (fn : Fn) : Except JsError Tap :=
  let normalized : Except JsError OptionsObject :=
    match options with
    | TapOptions.str s => Except.ok { name := some (jsTrim s) }
    | TapOptions.obj o => Except.ok o
    | TapOptions.null => Except.error (JsError.error "Invalid tap options")
    | TapOptions.other => Except.error (JsError.error "Invalid tap options")
  match normalized with
  | Except.error e => Except.error e
  | Except.ok o =>
    match o.name with
    | none => Except.error (JsError.error "Missing name for tap")
    | some name =>
      if name = "" then Except.error (JsError.error "Missing name for tap")
      else Except.ok (assignTypeFn type fn o name)

/-- Method `_tap`, lines 68-90: the state after the call and the error
thrown, if any. -/
def Hook._tap (h : Hook) (type : String) (options : TapOptions) (fn : Fn) : Hook × Option JsError :=
  match candidate type options fn with
  | Except.error e => (h, some e)
  | Except.ok options1 =>
    let options2 := h._runRegisterInterceptors options1
    h._insert options2

/-- Method `tap`, lines 93-95. -/
def Hook.tap (h : Hook) (options : TapOptions) (fn : Fn) : Hook × Option JsError :=
  h._tap "sync" options fn

/-- Method `tapAsync`, lines 96-98. -/
def Hook.tapAsync (h : Hook) (options : TapOptions) (fn : Fn) : Hook × Option JsError :=
  h._tap "async" options fn

/-- Method `tapPromise`, lines 99-101. -/
def Hook.tapPromise (h : Hook) (options : TapOptions) (fn : Fn) : Hook × Option JsError :=
  h._tap "promise" options fn

/-- Method `isUsed`, lines 135-137. -/
def Hook.isUsed (h : Hook) : Bool :=
  h.taps.length > 0 || h.interceptors.length > 0

/-- The `for` loop of `intercept`, lines 147-151: the first argument bounds
the number of iterations left (the array keeps its length), the second is
the loop variable `i`. -/
def interceptLoop (register : Slot → Slot) : Nat → Nat → List Slot → List Slot
  | 0, _, taps => taps
  | fuel + 1, i, taps =>
    if i < taps.length then
      interceptLoop register fuel (i + 1) (arraySet taps i (register (arrayGet taps i)))
    else taps

/-- Method `intercept`, lines 140-153: the copy of the interceptor is
stored, and the retroactive pass reads `register` from the interceptor that
was passed in. -/
def Hook.intercept (h : Hook) (interceptor : Interceptor) : Hook :=
  let h1 := h._resetCompilation
  let h2 := { h1 with interceptors := h1.interceptors ++ [interceptor.copy] }
  match interceptor.register with
  | some register => { h2 with taps := interceptLoop register h2.taps.length 0 h2.taps }
  | none => h2

/-! ## Call entry points -/

/-- The outcome of invoking a call entry point: the state afterwards, the
value returned or the error thrown, and the arguments of the calls made to
`compile`, in order. -/
structure CallOutcome where
  state : Hook
  result : Except JsError Val
  compiles : List CompileOptions

/-- Invoking the function `e` with `this = h` and arguments `args`: the
bodies of the three delegates (lines 12-23), or the compiled invocable. -/
def Entry.invoke (compile : Compiler) (e : Entry) (h : Hook) (args : List Val) : CallOutcome :=
  match e with
  | Entry.CALL_DELEGATE =>
    match h._createCall compile "sync" with
    | Except.error err => ⟨h, Except.error err, [h.compileOptions "sync"]⟩
    | Except.ok f => ⟨{ h with call := Entry.compiled f }, Except.ok (f.run args), [h.compileOptions "sync"]⟩
  | Entry.CALL_ASYNC_DELEGATE =>
    match h._createCall compile "async" with
    | Except.error err => ⟨h, Except.error err, [h.compileOptions "async"]⟩
    | Except.ok f => ⟨{ h with callAsync := Entry.compiled f }, Except.ok (f.run args), [h.compileOptions "async"]⟩
  | Entry.PROMISE_DELEGATE =>
    match h._createCall compile "promise" with
    | Except.error err => ⟨h, Except.error err, [h.compileOptions "promise"]⟩
    | Except.ok f => ⟨{ h with promise := Entry.compiled f }, Except.ok (f.run args), [h.compileOptions "promise"]⟩
  | Entry.compiled f => ⟨h, Except.ok (f.run args), []⟩

/-- The call `hook.call(...args)`. -/
def Hook.invokeCall (compile : Compiler) (h : Hook) (args : List Val) : CallOutcome :=
  h.call.invoke compile h args

/-- The call `hook.callAsync(...args)`. -/
def Hook.invokeCallAsync (compile : Compiler) (h : Hook) (args : List Val) : CallOutcome :=
  h.callAsync.invoke compile h args

/-- The call `hook.promise(...args)`. -/
def Hook.invokePromise (compile : Compiler) (h : Hook) (args : List Val) : CallOutcome :=
  h.promise.invoke compile h args

/-- One call of a public method of a hook. -/
inductive Op where
  | tap (options : TapOptions) (fn : Fn)
  | tapAsync (options : TapOptions) (fn : Fn)
  | tapPromise (options : TapOptions) (fn : Fn)
  | intercept (interceptor : Interceptor)
  | call (args : List Val)
  | callAsync (args : List Val)
  | promise (args : List Val)

/-- One method call: the state afterwards and the error thrown, if any. -/
def Hook.step (compile : Compiler) (h : Hook) : Op → Hook × Option JsError
  | Op.tap options fn => h.tap options fn
  | Op.tapAsync options fn => h.tapAsync options fn
  | Op.tapPromise options fn => h.tapPromise options fn
  | Op.intercept interceptor => (h.intercept interceptor, none)
  | Op.call args =>
    let r := h.invokeCall compile args
    (r.state, match r.result with
      | Except.ok _ => none
      | Except.error e => some e)
  | Op.callAsync args =>
    let r := h.invokeCallAsync compile args
    (r.state, match r.result with
      | Except.ok _ => none
      | Except.error e => some e)
  | Op.promise args =>
    let r := h.invokePromise compile args
    (r.state, match r.result with
      | Except.ok _ => none
      | Except.error e => some e)

/-- The state after a sequence of method calls, each error being caught by
the caller. -/
def Hook.run (compile : Compiler) (h : Hook) (ops : List Op) : Hook :=
  ops.foldl (fun st op => (st.step compile op).1) h

/-- The calls that change the registration state: `tap`, `tapAsync`,
`tapPromise` and `intercept`. -/
def Op.isRegistration : Op → Bool
  | Op.tap _ _ => true
  | Op.tapAsync _ _ => true
  | Op.tapPromise _ _ => true
  | Op.intercept _ => true
  | _ => false

/-- The three registration methods. -/
inductive Method where
  | tap
  | tapAsync
  | tapPromise
  deriving DecidableEq, Repr

/-- The `type` each registration method passes to `_tap`, lines 93-101. -/
def Method.type : Method → String
  | Method.tap => "sync"
  | Method.tapAsync => "async"
  | Method.tapPromise => "promise"

/-- One registration call `hook.tap(options, fn)`, `hook.tapAsync(options, fn)`
or `hook.tapPromise(options, fn)`. -/
structure Registration where
  method : Method
  options : TapOptions
  fn : Fn
  deriving DecidableEq, Repr

/-- The candidate descriptor a registration call builds, or its error. -/
def Registration.candidate (r : Registration) : Except JsError Tap :=
  Tapable.candidate r.method.type r.options r.fn

/-- The candidate descriptor of a registration call that passes the
validation of `_tap`; `none` for a call that throws. -/
def Registration.descriptor (r : Registration) : Option Tap :=
  match r.candidate with
  | Except.ok d => some d
  | Except.error _ => none

/-- The candidate descriptors of the calls of a sequence that pass the
validation of `_tap`, in registration order. -/
def descriptors (rs : List Registration) : List Tap :=
  rs.filterMap Registration.descriptor

/-- A registration call on a hook. -/
def Hook.register (h : Hook) (r : Registration) : Hook × Option JsError :=
  match r.method with
  | Method.tap => h.tap r.options r.fn
  | Method.tapAsync => h.tapAsync r.options r.fn
  | Method.tapPromise => h.tapPromise r.options r.fn

/-- A sequence of registration calls, each error being caught by the caller. -/
def Hook.registerAll (h : Hook) (rs : List Registration) : Hook :=
  rs.foldl (fun st r => (st.register r).1) h

/-! ## Positions in the tap array -/

/-- The array after `_insert` is called with each descriptor in turn. -/
def insertAll (taps : List Slot) : List Tap → List Slot
  | [] => taps
  | d :: ds => insertAll (insertInto taps d).1 ds

/-- The hook after `_insert` is called with each descriptor in turn. -/
def Hook.insertAll (h : Hook) (ds : List Tap) : Hook :=
  ds.foldl (fun st d => (st._insert d).1) h

/-- Where the element at index `p` is found once `_insert` has stored a new
element at index `k`: the elements from `k` on moved one place right. -/
def shiftPos (k p : Nat) : Nat :=
  if p < k then p else p + 1

/-- Where the element at index `p` of `taps` is found after `_insert` is
called with each descriptor of the list in turn. -/
def posAfter (taps : List Slot) : List Tap → Nat → Nat
  | [], p => p
  | d :: ds, p => posAfter (insertInto taps d).1 ds (shiftPos (insertIndex taps d) p)

/-- Where the descriptor of the `i`-th `_insert` call of the list is found
after all the calls of the list. -/
def regPos (taps : List Slot) : List Tap → Nat → Nat
  | [], _ => 0
  | d :: ds, 0 => posAfter (insertInto taps d).1 ds (insertIndex taps d)
  | d :: ds, i + 1 => regPos (insertInto taps d).1 ds i

/-- The stop index of the backward scan, by recursion on the scanned
elements, last element first; a proof device that follows the branches
of `insertLoop`. -/
def stopRev (stage : Int) : List Tap → NameSet → Nat
  | [], _ => 0
  | x :: more, before =>
    match before with
    | some names =>
      if names.contains x.name then
        stopRev stage more (some (names.filter (fun n => n != x.name)))
      else if names.length > 0 then stopRev stage more (some names)
      else if xStageOf x > stage then stopRev stage more (some names)
      else more.length + 1
    | none =>
      if xStageOf x > stage then stopRev stage more none
      else more.length + 1

/-- The stop index of the scan of `_insert` over an array holding the
descriptors `L`, for the new descriptor `d`; a proof device. -/
def stopIndex (L : List Tap) (d : Tap) : Nat :=
  stopRev (itemStage d) L.reverse (beforeSet d)

/-- The list `L` with `d` put in at the stop index; a proof device. -/
def spliced (L : List Tap) (d : Tap) : List Tap :=
  L.take (stopIndex L d) ++ d :: L.drop (stopIndex L d)

/-- The list `L` after each descriptor is put in at its stop index in
turn; a proof device. -/
def splicedAll (L : List Tap) (ds : List Tap) : List Tap :=
  ds.foldl spliced L

/-- The `before` constraint of `t`, given as a single name or as a
collection, contains the name `n`. -/
def Tap.namesBefore (t : Tap) (n : String) : Prop :=
  match t.before with
  | Before.str s => s = n
  | Before.arr names => n ∈ names
  | Before.absent => False

/-- The step of the left fold over interceptors that the specification
describes for registration-time rewriting: an interceptor without a
register capability, or whose register returns no value, passes the
descriptor on. -/
def registerStep (options : Tap) (interceptor : Interceptor) : Tap :=
  match interceptor.register with
  | none => options
  | some register =>
    match register (some options) with
    | none => options
    | some newOptions => newOptions

/-- A descriptor carries the field `intercepted: true`. -/
def Tap.intercepted (t : Tap) : Prop :=
  ("intercepted", "true") ∈ t.extra

/-- The private fields `_call`, `_callAsync` and `_promise` hold the three
delegates, as the constructor leaves them. -/
def Hook.delegatesKept (h : Hook) : Prop :=
  h._call = Entry.CALL_DELEGATE ∧ h._callAsync = Entry.CALL_ASYNC_DELEGATE
    ∧ h._promise = Entry.PROMISE_DELEGATE

/-! ## Calls made to the register capabilities -/

/-- The arguments of the calls `interceptor.register(options)` that
`_runRegisterInterceptors` makes (lines 106-115), in order. -/
def registerCalls : List Interceptor → Tap → List Tap
  | [], _ => []
  | interceptor :: more, options =>
    match interceptor.register with
    | some register =>
      options :: (match register (some options) with
        | some newOptions => registerCalls more newOptions
        | none => registerCalls more options)
    | none => registerCalls more options

/-- The arguments of the calls to register capabilities that `_tap` makes:
none when the validation of lines 69-79 throws, since line 88 is not
reached. -/
def Hook.tapRegisterCalls (h : Hook) (type : String) (options : TapOptions) (fn : Fn) :
    List Tap :=
  match candidate type options fn with
  | Except.error _ => []
  | Except.ok options1 => registerCalls h.interceptors options1

/-! ## The scoped view -/

/-- The call `Object.assign` of an empty object with `base` and then `over`,
on options objects: a field of `over` replaces the field of `base`.  A
`name` field of `over` that holds a value that is not a string replaces the
name of `base` too; a `type`, `fn` or `stage` that is `none` and a `before`
that is `Before.absent` in `over` stand for a field missing from it. -/
def objectAssign (base over : OptionsObject) : OptionsObject :=
  { name := match over.name with
      | some n => some n
      | none => if over.nameNotString then none else base.name
    nameNotString := match over.name with
      | some _ => over.nameNotString
      | none => over.nameNotString || base.nameNotString
    type := match over.type with
      | some t => some t
      | none => base.type
    fn := match over.fn with
      | some f => some f
      | none => base.fn
    stage := match over.stage with
      | some n => some n
      | none => base.stage
    before := match over.before with
      | Before.absent => base.before
      | b => b
    extra := over.extra
      ++ base.extra.filter (fun kv => !(over.extra.map Prod.fst).contains kv.1) }

/-- The function `mergeOptions` of `withOptions`, lines 120-121: a string
`opt` is wrapped as the object holding it as `name`; `null`, `undefined`
and the other values that are not objects contribute no field. -/
def mergeOptions (options : OptionsObject) (opt : TapOptions) : OptionsObject :=
  match opt with
  | TapOptions.str s => objectAssign options { name := some s }
  | TapOptions.obj o => objectAssign options o
  | TapOptions.null => options
  | TapOptions.other => options

/-- The method `tap` of the view `hook.withOptions(options)`, line 125. -/
def Hook.withOptionsTap (h : Hook) (options : OptionsObject) (opt : TapOptions) (fn : Fn) :
    Hook × Option JsError :=
  h.tap (TapOptions.obj (mergeOptions options opt)) fn

/-- The method `tapAsync` of the view `hook.withOptions(options)`, line 126. -/
def Hook.withOptionsTapAsync (h : Hook) (options : OptionsObject) (opt : TapOptions) (fn : Fn) :
    Hook × Option JsError :=
  h.tapAsync (TapOptions.obj (mergeOptions options opt)) fn

/-- The method `tapPromise` of the view `hook.withOptions(options)`, line 127. -/
def Hook.withOptionsTapPromise (h : Hook) (options : OptionsObject) (opt : TapOptions)
    (fn : Fn) : Hook × Option JsError :=
  h.tapPromise (TapOptions.obj (mergeOptions options opt)) fn

/-! ## The registered descriptors, in registration order -/

/-- The registration call an operation makes, if it is one. -/
def Op.registration : Op → Option Registration
  | Op.tap options fn => some ⟨Method.tap, options, fn⟩
  | Op.tapAsync options fn => some ⟨Method.tapAsync, options, fn⟩
  | Op.tapPromise options fn => some ⟨Method.tapPromise, options, fn⟩
  | _ => none

/-- The descriptors present in the hook, as currently stored and in their
registration order, after one more method call: a registration that does
not throw adds the descriptor handed to `_insert` at the end, and
`intercept` with a register capability replaces each stored descriptor by
what the capability returns for it. -/
def Hook.stepLedger (h : Hook) (ledger : List Slot) (op : Op) : List Slot :=
  match op with
  | Op.intercept interceptor =>
    match interceptor.register with
    | some register => ledger.map register
    | none => ledger
  | _ =>
    match op.registration with
    | some r =>
      match (h.register r).2, r.descriptor with
      | none, some c => ledger ++ [some (h._runRegisterInterceptors c)]
      | _, _ => ledger
    | none => ledger

/-- The descriptors present in the hook, as currently stored and in their
registration order, after a sequence of method calls. -/
def Hook.runLedger (compile : Compiler) : Hook → List Slot → List Op → List Slot
  | _, ledger, [] => ledger
  | h, ledger, op :: ops =>
    Hook.runLedger compile (h.step compile op).1 (h.stepLedger ledger op) ops

/-- The register capability of an interceptor, when it has one, returns
for every descriptor a descriptor with the same `name`, `stage` and
`before`. -/
def Interceptor.keepsOrderFields (i : Interceptor) : Prop :=
  ∀ register, i.register = some register →
    ∀ t : Tap, ∃ t2, register (some t) = some t2
      ∧ t2.name = t.name ∧ t2.stage = t.stage ∧ t2.before = t.before

/-! ## Sample inputs, used to instantiate the theorems -/

/-- The descriptor of `tap((name: "a", stage: 10), f1)`. -/
def sampleA : Tap := { type := "sync", fn := 1, name := "a", stage := some 10 }

/-- The descriptor of `tap((name: "b", stage: -10), f2)`. -/
def sampleB : Tap := { type := "sync", fn := 2, name := "b", stage := some (-10) }

/-- The descriptor of `tap((name: "c", before: "a"), f3)`. -/
def sampleC : Tap := { type := "sync", fn := 3, name := "c", before := Before.str "a" }

/-- The descriptor of `tap((name: "z", stage: 5, before: ["missing"]), f4)`. -/
def sampleZ : Tap :=
  { type := "sync", fn := 4, name := "z", stage := some 5, before := Before.arr ["missing"] }

/-- A fresh hook on which `a` and then `b` were registered. -/
def sampleHook : Hook := (Hook.new ["x"] (some "sample")).insertAll [sampleA, sampleB]

/-- Two descriptors with the same name `n`. -/
def sampleN1 : Tap := { type := "sync", fn := 5, name := "n" }

/-- The second descriptor named `n`. -/
def sampleN2 : Tap := { type := "async", fn := 6, name := "n" }

/-- The descriptor of `tap((name: "m", before: "n"), f7)`. -/
def sampleM : Tap := { type := "sync", fn := 7, name := "m", before := Before.str "n" }

/-- A fresh hook on which two taps named `n` were registered. -/
def dupHook : Hook := Hook.new.insertAll [sampleN1, sampleN2]

/-- The calls `tap((name: "a", stage: 1), f1)` and then
`tap((name: "z", stage: 5, before: ["missing"]), f2)`. -/
def sampleRegs : List Registration :=
  [ ⟨Method.tap, TapOptions.obj { name := some "a", stage := some 1 }, 1⟩,
    ⟨Method.tap, TapOptions.obj
      { name := some "z", stage := some 5, before := Before.arr ["missing"] }, 2⟩ ]

/-- The calls `tap((name: "a", stage: 10), f1)`, `tapAsync("  b ", f2)`,
`tapPromise((name: "c", stage: -10), f3)`, `tap("d", f4)` and a call that
fails validation. -/
def plainRegs : List Registration :=
  [ ⟨Method.tap, TapOptions.obj { name := some "a", stage := some 10 }, 1⟩,
    ⟨Method.tapAsync, TapOptions.str "  b ", 2⟩,
    ⟨Method.tapPromise, TapOptions.obj { name := some "c", stage := some (-10) }, 3⟩,
    ⟨Method.tap, TapOptions.str "d", 4⟩,
    ⟨Method.tap, TapOptions.other, 5⟩ ]

/-- A compiler whose invocable adds the number of taps to the sum of the
call arguments. -/
def sampleCompile : Compiler :=
  fun o => Except.ok ⟨fun args => args.sum + o.taps.length⟩

/-- A register capability that tags a descriptor with `intercepted: true`
and returns it. -/
def tagRegister : Slot → Slot
  | some t => some { t with extra := ("intercepted", "true") :: t.extra }
  | none => none

/-- An interceptor with the tagging register capability. -/
def tagInterceptor : Interceptor := { register := some tagRegister, rest := 1 }

/-- An interceptor without a register capability. -/
def plainInterceptor : Interceptor := { register := none, rest := 2 }

/-- A hook on which `a` was registered, `call(1, 2)` and `promise()` were
invoked, and the tagging interceptor was added. -/
def sampleState : Hook :=
  (Hook.new ["x"] none).run sampleCompile
    [Op.tap (TapOptions.str "a") 1, Op.call [1, 2], Op.promise [], Op.intercept tagInterceptor]

/-- The calls of the scenario: `tap((name: "a", stage: 10), f1)`,
`tap((name: "b", stage: -10), f2)` and `tap((name: "c", before: "a"), f3)`. -/
def scenarioRegs : List Registration :=
  [ ⟨Method.tap, TapOptions.obj { name := some "a", stage := some 10 }, 1⟩,
    ⟨Method.tap, TapOptions.obj { name := some "b", stage := some (-10) }, 2⟩,
    ⟨Method.tap, TapOptions.obj { name := some "c", before := Before.str "a" }, 3⟩ ]

/-- The options object `(name: "a", type: "async", fn: f9)`. -/
def overridingOptions : OptionsObject :=
  { name := some "a", type := some "async", fn := some 9 }

/-- A register capability that returns no value. -/
def silentRegister : Slot → Slot := fun _ => none

/-- An interceptor whose register capability returns no value. -/
def silentInterceptor : Interceptor := { register := some silentRegister, rest := 3 }

/-- A register capability that sets the stage of the taps named `a` to 10
and returns the descriptor. -/
def restageRegister : Slot → Slot
  | some t => if t.name = "a" then some { t with stage := some 10 } else some t
  | none => none

/-- An interceptor with the restaging register capability. -/
def restageInterceptor : Interceptor := { register := some restageRegister, rest := 4 }

/-- The calls `tap("a", f1)`, `tap("b", f2)` and then `intercept` with the
restaging interceptor. -/
def restageOps : List Op :=
  [Op.tap (TapOptions.str "a") 1, Op.tap (TapOptions.str "b") 2, Op.intercept restageInterceptor]

/-- The calls `tap("a", f1)`, `intercept` with the tagging interceptor,
`call(1)` and `tapAsync((name: "b", stage: -1), f2)`. -/
def taggingOps : List Op :=
  [Op.tap (TapOptions.str "a") 1, Op.intercept tagInterceptor, Op.call [1],
    Op.tapAsync (TapOptions.obj { name := some "b", stage := some (-1) }) 2]

/-- An interceptor whose tagging register capability is inherited from its
prototype, as for an instance of a class with a `register` method. -/
def inheritedInterceptor : Interceptor :=
  { register := some tagRegister, rest := 5, registerOwn := false }

/-- The options object `(name: 42)`, whose name is not a string. -/
def numberNameOptions : OptionsObject := { nameNotString := true }

/-! # Theorems -/


/-! ## The insertion loop on arrays of descriptors -/

theorem arrayGet_append_length (a : List Slot) (s : Slot) (b : List Slot) :
    arrayGet (a ++ s :: b) a.length = s := by
  rw [arrayGet, List.get?_eq_getElem?, List.getElem?_append_right (le_refl _)]
  simp

theorem arraySet_append_length (a b : List Slot) (v : Slot) :
    arraySet (a ++ b) a.length v = a ++ v :: b.tail := by
  cases b with
  | nil => simp [arraySet]
  | cons y b => simp [arraySet, List.set_append]

theorem stopRev_le (stage : Int) (r : List Tap) (before : NameSet) :
    stopRev stage r before ≤ r.length := by
  induction r generalizing before with
  | nil => simp [stopRev]
  | cons x more ih =>
    have h1 := fun b => Nat.le_succ_of_le (ih b)
    cases before with
    | none =>
      simp only [stopRev, List.length_cons]
      split
      · exact h1 _
      · exact le_refl _
    | some names =>
      simp only [stopRev, List.length_cons]
      split
      · exact h1 _
      · split
        · exact h1 _
        · split
          · exact h1 _
          · exact le_refl _

/-- The loop of `_insert`, started at the end of a prefix of descriptors:
it never throws, stops at `stopRev`, and the store that follows it leaves
the prefix split at that index around the new slot. -/
theorem insertLoop_spec (stage : Int) (r : List Tap) (rest : List Slot) (before : NameSet) :
    (insertLoop stage r.length (r.reverse.map some ++ rest) before).2
        = Except.ok (stopRev stage r before)
    ∧ ∀ v, arraySet (insertLoop stage r.length (r.reverse.map some ++ rest) before).1
        (stopRev stage r before) v
        = (r.reverse.take (stopRev stage r before)).map some
          ++ v :: ((r.reverse.drop (stopRev stage r before)).map some ++ rest.tail) := by
  induction r generalizing rest before with
  | nil =>
    refine ⟨by simp [insertLoop, stopRev], fun v => ?_⟩
    simpa [insertLoop, stopRev] using arraySet_append_length [] rest v
  | cons x more ih =>
    have hlen : (more.reverse.map some).length = more.length := by simp
    have hget : arrayGet ((x :: more).reverse.map some ++ rest) more.length = some x := by
      have := arrayGet_append_length (more.reverse.map some) (some x) rest
      simpa [hlen] using this
    have hset : arraySet ((x :: more).reverse.map some ++ rest) (more.length + 1) (some x)
        = more.reverse.map some ++ (some x :: some x :: rest.tail) := by
      have := arraySet_append_length ((x :: more).reverse.map some) rest (some x)
      simpa using this
    -- the two ways an iteration ends
    have hcont : ∀ b : NameSet, stopRev stage (x :: more) before = stopRev stage more b →
        insertLoop stage (more.length + 1) ((x :: more).reverse.map some ++ rest) before
          = insertLoop stage more.length
              (more.reverse.map some ++ (some x :: some x :: rest.tail)) b →
        (insertLoop stage (x :: more).length ((x :: more).reverse.map some ++ rest) before).2
            = Except.ok (stopRev stage (x :: more) before)
        ∧ ∀ v, arraySet (insertLoop stage (x :: more).length
              ((x :: more).reverse.map some ++ rest) before).1
            (stopRev stage (x :: more) before) v
            = ((x :: more).reverse.take (stopRev stage (x :: more) before)).map some
              ++ v :: (((x :: more).reverse.drop (stopRev stage (x :: more) before)).map some
                ++ rest.tail) := by
      intro b hk hl
      have hk' := stopRev_le stage more b
      obtain ⟨h1, h2⟩ := ih (some x :: some x :: rest.tail) b
      simp only [List.length_cons]
      rw [hl, hk]
      refine ⟨h1, fun v => ?_⟩
      rw [h2 v]
      have hl2 : stopRev stage more b ≤ more.reverse.length := by simpa using hk'
      simp [List.take_append_of_le_length hl2, List.drop_append_of_le_length hl2]
    have hstop : stopRev stage (x :: more) before = more.length + 1 →
        insertLoop stage (more.length + 1) ((x :: more).reverse.map some ++ rest) before
          = (more.reverse.map some ++ (some x :: some x :: rest.tail),
              Except.ok (more.length + 1)) →
        (insertLoop stage (x :: more).length ((x :: more).reverse.map some ++ rest) before).2
            = Except.ok (stopRev stage (x :: more) before)
        ∧ ∀ v, arraySet (insertLoop stage (x :: more).length
              ((x :: more).reverse.map some ++ rest) before).1
            (stopRev stage (x :: more) before) v
            = ((x :: more).reverse.take (stopRev stage (x :: more) before)).map some
              ++ v :: (((x :: more).reverse.drop (stopRev stage (x :: more) before)).map some
                ++ rest.tail) := by
      intro hk hl
      simp only [List.length_cons]
      rw [hl, hk]
      refine ⟨rfl, fun v => ?_⟩
      have := arraySet_append_length (more.reverse.map some ++ [some x]) (some x :: rest.tail) v
      simp only [List.length_append, hlen, List.length_singleton, List.append_assoc,
        List.singleton_append, List.tail_cons] at this
      rw [this]
      have ht : (x :: more).reverse.take (more.length + 1) = (x :: more).reverse :=
        List.take_of_length_le (by simp)
      have hd : (x :: more).reverse.drop (more.length + 1) = [] :=
        List.drop_of_length_le (by simp)
      rw [ht, hd]
      simp
    cases before with
    | none =>
      by_cases hs : xStageOf x > stage
      · refine hcont none (by simp only [stopRev, hs, if_true]) ?_
        rw [insertLoop]; simp only [hget, hset, hs, if_true]
      · refine hstop (by simp only [stopRev, hs, if_false]) ?_
        rw [insertLoop]; simp only [hget, hset, hs, if_false]
    | some names =>
      cases hc : names.contains x.name with
      | true =>
        refine hcont (some (names.filter (fun n => n != x.name)))
          (by simp only [stopRev, hc, if_true]) ?_
        rw [insertLoop]; simp only [hget, hset, hc, if_true]
      | false =>
        by_cases hn : names.length > 0
        · refine hcont (some names)
            (by simp only [stopRev, hc, hn, if_true, if_false, Bool.false_eq_true]) ?_
          rw [insertLoop]
          simp only [hget, hset, hc, hn, if_true, if_false, Bool.false_eq_true]
        · by_cases hs : xStageOf x > stage
          · refine hcont (some names)
              (by simp only [stopRev, hc, hn, hs, if_true, if_false, Bool.false_eq_true]) ?_
            rw [insertLoop]
            simp only [hget, hset, hc, hn, hs, if_true, if_false, Bool.false_eq_true]
          · refine hstop (by simp only [stopRev, hc, hn, hs, if_false, Bool.false_eq_true]) ?_
            rw [insertLoop]
            simp only [hget, hset, hc, hn, hs, if_false, Bool.false_eq_true]


/-! ## `_insert` on arrays without `undefined` elements -/

theorem stopIndex_le (L : List Tap) (d : Tap) : stopIndex L d ≤ L.length := by
  have := stopRev_le (itemStage d) L.reverse (beforeSet d)
  simpa [stopIndex] using this

theorem insertIndex_map_some (L : List Tap) (d : Tap) :
    insertIndex (L.map some) d = stopIndex L d := by
  have h := (insertLoop_spec (itemStage d) L.reverse [] (beforeSet d)).1
  simp only [List.length_reverse, List.reverse_reverse, List.append_nil] at h
  simp only [insertIndex, List.length_map, h, stopIndex]

theorem insertInto_map_some (L : List Tap) (d : Tap) :
    insertInto (L.map some) d
      = ((L.take (stopIndex L d) ++ d :: L.drop (stopIndex L d)).map some, none) := by
  obtain ⟨h1, h2⟩ := insertLoop_spec (itemStage d) L.reverse [] (beforeSet d)
  simp only [List.length_reverse, List.reverse_reverse, List.append_nil, List.tail_nil] at h1 h2
  have h3 := h2 (some d)
  unfold insertInto
  simp only [List.length_map]
  generalize insertLoop (itemStage d) L.length (L.map some) (beforeSet d) = res at h1 h3
  obtain ⟨t, e⟩ := res
  simp only at h1 h3
  subst h1
  simp only [h3, stopIndex, List.map_append, List.map_cons]

theorem xStageOf_eq_itemStage (x : Tap) : xStageOf x = itemStage x := by
  unfold xStageOf itemStage
  cases x.stage with
  | none => rfl
  | some n =>
    by_cases hn : n = 0
    · simp [hn]
    · simp [hn]

/-- Where the scan stops: the scanned elements `B` (last first) and the
untouched ones `A` (last first). -/
theorem stopRev_split (stage : Int) (r : List Tap) (before : NameSet) :
    ∃ B A, r = B ++ A ∧ stopRev stage r before = A.length
      ∧ (∀ a, A.head? = some a → xStageOf a ≤ stage)
      ∧ ((before = none ∨ before = some []) → ∀ b ∈ B, stage < xStageOf b) := by
  induction r generalizing before with
  | nil => exact ⟨[], [], rfl, rfl, by simp, by simp⟩
  | cons x more ih =>
    have hstop : ¬ (xStageOf x > stage) → stopRev stage (x :: more) before = more.length + 1 →
        ∃ B A, x :: more = B ++ A ∧ stopRev stage (x :: more) before = A.length
          ∧ (∀ a, A.head? = some a → xStageOf a ≤ stage)
          ∧ ((before = none ∨ before = some []) → ∀ b ∈ B, stage < xStageOf b) := by
      intro hs hk
      refine ⟨[], x :: more, rfl, by simpa using hk, ?_, by simp⟩
      intro a ha
      simp only [List.head?_cons, Option.some.injEq] at ha
      subst ha
      exact not_lt.mp hs
    have hcont : ∀ b : NameSet, stopRev stage (x :: more) before = stopRev stage more b →
        ((before = none ∨ before = some []) → (b = none ∨ b = some []) ∧ stage < xStageOf x) →
        ∃ B A, x :: more = B ++ A ∧ stopRev stage (x :: more) before = A.length
          ∧ (∀ a, A.head? = some a → xStageOf a ≤ stage)
          ∧ ((before = none ∨ before = some []) → ∀ b ∈ B, stage < xStageOf b) := by
      intro b hk hb
      obtain ⟨B, A, h1, h2, h3, h4⟩ := ih b
      refine ⟨x :: B, A, by simp [h1], by rw [hk, h2], h3, ?_⟩
      intro hbef y hy
      obtain ⟨hb1, hb2⟩ := hb hbef
      rcases List.mem_cons.mp hy with rfl | hy
      · exact hb2
      · exact h4 hb1 y hy
    cases before with
    | none =>
      by_cases hs : xStageOf x > stage
      · exact hcont none (by simp only [stopRev, hs, if_true]) (fun _ => ⟨Or.inl rfl, hs⟩)
      · exact hstop hs (by simp only [stopRev, hs, if_false])
    | some names =>
      cases hc : names.contains x.name with
      | true =>
        refine hcont (some (names.filter (fun n => n != x.name)))
          (by simp only [stopRev, hc, if_true]) ?_
        intro hbef
        rcases hbef with hbef | hbef
        · cases hbef
        · simp only [Option.some.injEq] at hbef
          subst hbef
          simp at hc
      | false =>
        by_cases hn : names.length > 0
        · refine hcont (some names)
            (by simp only [stopRev, hc, hn, if_true, if_false, Bool.false_eq_true]) ?_
          intro hbef
          rcases hbef with hbef | hbef
          · cases hbef
          · simp only [Option.some.injEq] at hbef
            subst hbef
            simp at hn
        · by_cases hs : xStageOf x > stage
          · refine hcont (some names)
              (by simp only [stopRev, hc, hn, hs, if_true, if_false, Bool.false_eq_true]) ?_
            intro hbef
            exact ⟨hbef, hs⟩
          · exact hstop hs (by simp only [stopRev, hc, hn, hs, if_false, Bool.false_eq_true])

/-- The array around the place where `_insert` stores `d`: `A` is left in
place, `B` is moved one slot to the right. -/
theorem stopIndex_split (L : List Tap) (d : Tap) :
    ∃ A B, L = A ++ B ∧ stopIndex L d = A.length
      ∧ L.take (stopIndex L d) = A ∧ L.drop (stopIndex L d) = B
      ∧ (∀ a, A.getLast? = some a → itemStage a ≤ itemStage d)
      ∧ ((beforeSet d = none ∨ beforeSet d = some []) → ∀ b ∈ B, itemStage d < itemStage b) := by
  obtain ⟨B, A, h1, h2, h3, h4⟩ := stopRev_split (itemStage d) L.reverse (beforeSet d)
  have hL : L = A.reverse ++ B.reverse := by
    have := congrArg List.reverse h1
    simpa using this
  have hk : stopIndex L d = A.reverse.length := by simp [stopIndex, h2]
  refine ⟨A.reverse, B.reverse, hL, hk, ?_, ?_, ?_, ?_⟩
  · rw [hk]; conv_lhs => rw [hL]
    simp
  · rw [hk]; conv_lhs => rw [hL]
    simp
  · intro a ha
    rw [← xStageOf_eq_itemStage]
    exact h3 a (by simpa using ha)
  · intro hb b hbm
    rw [← xStageOf_eq_itemStage b]
    exact h4 hb b (by simpa using hbm)

/-- A name of the working set that no scanned element bears keeps the scan
going to the front. -/
theorem stopRev_unmatched (stage : Int) (r : List Tap) (names : List String) (n : String)
    (hn : n ∈ names) (hr : ∀ x ∈ r, x.name ≠ n) : stopRev stage r (some names) = 0 := by
  induction r generalizing names with
  | nil => rfl
  | cons x more ih =>
    have hx : x.name ≠ n := hr x (List.mem_cons_self _ _)
    have hmore : ∀ y ∈ more, y.name ≠ n := fun y hy => hr y (List.mem_cons_of_mem _ hy)
    cases hc : names.contains x.name with
    | true =>
      simp only [stopRev, hc, if_true]
      refine ih _ ?_ hmore
      simp only [List.mem_filter, hn, true_and, bne_iff_ne, ne_eq]
      exact fun h => hx h.symm
    | false =>
      have hlen : names.length > 0 := List.length_pos_of_mem hn
      simp only [stopRev, hc, hlen, if_true, if_false, Bool.false_eq_true]
      exact ih _ hn hmore

/-- The scan does not stop before it has passed the first scanned element
(the rightmost of the array) that bears a name of the working set. -/
theorem stopRev_passes (stage : Int) (r1 : List Tap) (x : Tap) (r2 : List Tap)
    (names : List String) (hn : x.name ∈ names) (h1 : ∀ y ∈ r1, y.name ≠ x.name) :
    stopRev stage (r1 ++ x :: r2) (some names) ≤ r2.length := by
  induction r1 generalizing names with
  | nil =>
    have hc : names.contains x.name = true := by simpa using hn
    simp only [List.nil_append, stopRev, hc, if_true]
    exact stopRev_le _ _ _
  | cons y more ih =>
    have hy : y.name ≠ x.name := h1 y (List.mem_cons_self _ _)
    have hmore : ∀ z ∈ more, z.name ≠ x.name := fun z hz => h1 z (List.mem_cons_of_mem _ hz)
    cases hc : names.contains y.name with
    | true =>
      simp only [List.cons_append, stopRev, hc, if_true]
      refine ih _ ?_ hmore
      simp only [List.mem_filter, hn, true_and, bne_iff_ne, ne_eq]
      exact fun h => hy h.symm
    | false =>
      have hlen : names.length > 0 := List.length_pos_of_mem hn
      simp only [List.cons_append, stopRev, hc, hlen, if_true, if_false, Bool.false_eq_true]
      exact ih _ hn hmore

/-! ## `Hook._insert` -/

theorem Hook.insert_taps (h : Hook) (d : Tap) :
    (h._insert d).1.taps = (insertInto h.taps d).1 := rfl

theorem Hook.insert_error (h : Hook) (d : Tap) :
    (h._insert d).2 = (insertInto h.taps d).2 := rfl

theorem namesBefore_iff (t : Tap) (n : String) :
    t.namesBefore n ↔ ∃ names, beforeSet t = some names ∧ n ∈ names := by
  unfold Tap.namesBefore beforeSet
  cases t.before with
  | absent => simp
  | str s => simp [eq_comm]
  | arr l => simp

/-- C4: on an array holding the descriptors `L`, `_insert(d)` does not throw
and leaves `L[0..k) ++ [d] ++ L[k..)` with `k ≤ |L|` the index at which it
stores `d`: the array is one longer, and no element is dropped, duplicated,
overwritten or moved past another. -/
theorem insert_splices (h : Hook) (L : List Tap) (d : Tap) (hL : h.taps = L.map some) :
    (h._insert d).2 = none
    ∧ insertIndex h.taps d ≤ L.length
    ∧ (h._insert d).1.taps
        = (L.take (insertIndex h.taps d)).map some ++ some d
            :: (L.drop (insertIndex h.taps d)).map some
    ∧ (h._insert d).1.taps.length = L.length + 1 := by
  have hk := stopIndex_le L d
  rw [Hook.insert_taps, Hook.insert_error, hL, insertInto_map_some, insertIndex_map_some]
  refine ⟨rfl, hk, by simp, ?_⟩
  simp only [List.length_map, List.length_append, List.length_cons, List.length_take,
    List.length_drop]
  omega

theorem insert_splices_witness :
    sampleHook.taps = [sampleB, sampleA].map some
    ∧ (sampleHook._insert sampleC).2 = none
    ∧ insertIndex sampleHook.taps sampleC ≤ [sampleB, sampleA].length
    ∧ (sampleHook._insert sampleC).1.taps
        = ([sampleB, sampleA].take (insertIndex sampleHook.taps sampleC)).map some
            ++ some sampleC :: ([sampleB, sampleA].drop (insertIndex sampleHook.taps sampleC)).map some
    ∧ (sampleHook._insert sampleC).1.taps.length = [sampleB, sampleA].length + 1 :=
  ⟨by decide, insert_splices sampleHook [sampleB, sampleA] sampleC (by decide)⟩

/-- C3: when the `before` constraint of `A` contains a name that no tap of
the array bears, `_insert(A)` stores `A` at index 0, followed by the previous
taps in their previous order, whatever the stages are. -/
theorem insert_unmatched_before_front (h : Hook) (L : List Tap) (A : Tap) (n : String)
    (hL : h.taps = L.map some) (hn : A.namesBefore n) (hfree : ∀ t ∈ L, t.name ≠ n) :
    (h._insert A).2 = none
    ∧ insertIndex h.taps A = 0
    ∧ (h._insert A).1.taps = some A :: L.map some := by
  obtain ⟨names, hb, hmem⟩ := (namesBefore_iff A n).mp hn
  have hk : stopIndex L A = 0 := by
    unfold stopIndex
    rw [hb]
    exact stopRev_unmatched _ _ names n hmem (by simpa using hfree)
  rw [Hook.insert_taps, Hook.insert_error, hL, insertInto_map_some, insertIndex_map_some, hk]
  exact ⟨rfl, rfl, by simp⟩

theorem insert_unmatched_before_front_witness :
    sampleHook.taps = [sampleB, sampleA].map some
    ∧ sampleZ.namesBefore "missing"
    ∧ (∀ t ∈ [sampleB, sampleA], t.name ≠ "missing")
    ∧ (sampleHook._insert sampleZ).2 = none
    ∧ insertIndex sampleHook.taps sampleZ = 0
    ∧ (sampleHook._insert sampleZ).1.taps = some sampleZ :: [sampleB, sampleA].map some :=
  ⟨by decide, by simp [Tap.namesBefore, sampleZ], by decide,
    insert_unmatched_before_front sampleHook [sampleB, sampleA] sampleZ "missing"
      (by decide) (by simp [Tap.namesBefore, sampleZ]) (by decide)⟩

/-! ## Sequences of insertions and positions -/

theorem insertInto_map_some_fst (L : List Tap) (d : Tap) :
    (insertInto (L.map some) d).1 = (spliced L d).map some := by
  rw [insertInto_map_some, spliced]

theorem insertAll_map_some (L : List Tap) (ds : List Tap) :
    insertAll (L.map some) ds = (splicedAll L ds).map some := by
  induction ds generalizing L with
  | nil => rfl
  | cons d ds ih =>
    simp only [insertAll, insertInto_map_some_fst, ih, splicedAll, List.foldl_cons]

theorem Hook.insertAll_taps (h : Hook) (ds : List Tap) :
    (h.insertAll ds).taps = Tapable.insertAll h.taps ds := by
  induction ds generalizing h with
  | nil => rfl
  | cons d ds ih =>
    simp only [Hook.insertAll, List.foldl_cons, Tapable.insertAll]
    exact ih (h._insert d).1

theorem arrayGet_map_some (M : List Tap) (p : Nat) : arrayGet (M.map some) p = M[p]? := by
  simp only [arrayGet, List.get?_eq_getElem?, List.getElem?_map]
  cases M[p]? <;> rfl

theorem shiftPos_lt {k p q : Nat} (h : p < q) : shiftPos k p < shiftPos k q := by
  unfold shiftPos
  split <;> split <;> omega

theorem shiftPos_ne (k p : Nat) : shiftPos k p ≠ k := by
  unfold shiftPos
  split <;> omega

theorem spliced_length (L : List Tap) (d : Tap) : (spliced L d).length = L.length + 1 := by
  have := stopIndex_le L d
  simp only [spliced, List.length_append, List.length_take, List.length_cons, List.length_drop]
  omega

theorem spliced_getElem?_stop (L : List Tap) (d : Tap) :
    (spliced L d)[stopIndex L d]? = some d := by
  have hk := stopIndex_le L d
  have hlen : (L.take (stopIndex L d)).length = stopIndex L d := by
    simp only [List.length_take]; omega
  rw [spliced, List.getElem?_append_right (by omega), hlen]
  simp

theorem spliced_getElem?_shift (L : List Tap) (d : Tap) (p : Nat) :
    (spliced L d)[shiftPos (stopIndex L d) p]? = L[p]? := by
  have hk := stopIndex_le L d
  have hlen : (L.take (stopIndex L d)).length = stopIndex L d := by
    simp only [List.length_take]; omega
  unfold shiftPos
  by_cases hp : p < stopIndex L d
  · simp only [hp, if_true]
    rw [spliced, List.getElem?_append_left (by omega), List.getElem?_take_of_lt hp]
  · simp only [hp, if_false]
    rw [spliced, List.getElem?_append_right (by omega), hlen]
    have h1 : p + 1 - stopIndex L d = (p - stopIndex L d) + 1 := by omega
    rw [h1, List.getElem?_cons_succ, List.getElem?_drop]
    congr 1
    omega

theorem posAfter_lt (taps : List Slot) (ds : List Tap) {p q : Nat} (h : p < q) :
    posAfter taps ds p < posAfter taps ds q := by
  induction ds generalizing taps p q with
  | nil => exact h
  | cons d ds ih => exact ih _ (shiftPos_lt h)

theorem posAfter_cons_map (L : List Tap) (d : Tap) (ds : List Tap) (p : Nat) :
    posAfter (L.map some) (d :: ds) p
      = posAfter ((spliced L d).map some) ds (shiftPos (stopIndex L d) p) := by
  simp only [posAfter, insertInto_map_some_fst, insertIndex_map_some]

theorem regPos_zero_map (L : List Tap) (d : Tap) (ds : List Tap) :
    regPos (L.map some) (d :: ds) 0 = posAfter ((spliced L d).map some) ds (stopIndex L d) := by
  simp only [regPos, insertInto_map_some_fst, insertIndex_map_some]

theorem regPos_succ_map (L : List Tap) (d : Tap) (ds : List Tap) (i : Nat) :
    regPos (L.map some) (d :: ds) (i + 1) = regPos ((spliced L d).map some) ds i := by
  simp only [regPos, insertInto_map_some_fst]

/-- The element at index `p` is found at `posAfter` after later insertions. -/
theorem posAfter_getElem? (L : List Tap) (ds : List Tap) (p : Nat) :
    (splicedAll L ds)[posAfter (L.map some) ds p]? = L[p]? := by
  induction ds generalizing L p with
  | nil => rfl
  | cons d ds ih =>
    rw [posAfter_cons_map]
    simp only [splicedAll, List.foldl_cons]
    have := ih (spliced L d) (shiftPos (stopIndex L d) p)
    simp only [splicedAll] at this
    rw [this, spliced_getElem?_shift]

/-- The descriptor of the `i`-th insertion is found at `regPos`. -/
theorem regPos_getElem? (L : List Tap) (ds : List Tap) (i : Nat) (hi : i < ds.length) :
    (splicedAll L ds)[regPos (L.map some) ds i]? = ds[i]? := by
  induction ds generalizing L i with
  | nil => simp at hi
  | cons d ds ih =>
    cases i with
    | zero =>
      rw [regPos_zero_map]
      have := posAfter_getElem? (spliced L d) ds (stopIndex L d)
      simp only [splicedAll, List.foldl_cons] at this ⊢
      rw [this, spliced_getElem?_stop]
      simp
    | succ i =>
      rw [regPos_succ_map]
      have := ih (spliced L d) i (by simpa using hi)
      simp only [splicedAll, List.foldl_cons] at this ⊢
      rw [this]
      simp

theorem beforeSet_eq_none_iff (d : Tap) : beforeSet d = none ↔ d.before = Before.absent := by
  unfold beforeSet
  cases d.before <;> simp

/-- A descriptor without a `before` constraint is stored to the right of
every element whose stage is not greater than its own. -/
theorem stopIndex_gt_of_stage_le (L : List Tap) (d : Tap) (p : Nat) (a : Tap)
    (hb : d.before = Before.absent) (ha : L[p]? = some a) (hs : itemStage a ≤ itemStage d) :
    p < stopIndex L d := by
  obtain ⟨A, B, hL, hk, -, -, -, hB⟩ := stopIndex_split L d
  by_contra hp
  have hp' : A.length ≤ p := by omega
  rw [hL, List.getElem?_append_right hp'] at ha
  have hmem : a ∈ B := List.getElem?_mem ha
  have := hB (Or.inl ((beforeSet_eq_none_iff d).mpr hb)) a hmem
  omega

/-- An element stays to the left of a later registration that declares no
`before` constraint and whose stage is not smaller. -/
theorem posAfter_lt_regPos (L : List Tap) (ds : List Tap) (p j : Nat) (a b : Tap)
    (ha : L[p]? = some a) (hj : ds[j]? = some b) (hb : b.before = Before.absent)
    (hs : itemStage a ≤ itemStage b) :
    posAfter (L.map some) ds p < regPos (L.map some) ds j := by
  induction ds generalizing L p j with
  | nil => simp at hj
  | cons d ds ih =>
    rw [posAfter_cons_map]
    cases j with
    | zero =>
      simp only [List.getElem?_cons_zero, Option.some.injEq] at hj
      subst hj
      rw [regPos_zero_map]
      have hp := stopIndex_gt_of_stage_le L d p a hb ha hs
      apply posAfter_lt
      simp only [shiftPos, hp, if_true]
    | succ j =>
      rw [regPos_succ_map]
      refine ih (spliced L d) _ j ?_ (by simpa using hj)
      rw [spliced_getElem?_shift]; exact ha

/-- Registration order is kept between a descriptor and a later one that
declares no `before` constraint and whose stage is not smaller. -/
theorem regPos_lt_of_stage_le (L : List Tap) (ds : List Tap) (i j : Nat) (a b : Tap)
    (hij : i < j) (ha : ds[i]? = some a) (hj : ds[j]? = some b)
    (hb : b.before = Before.absent) (hs : itemStage a ≤ itemStage b) :
    regPos (L.map some) ds i < regPos (L.map some) ds j := by
  induction ds generalizing L i j with
  | nil => simp at hj
  | cons d ds ih =>
    cases j with
    | zero => omega
    | succ j =>
      rw [regPos_succ_map]
      cases i with
      | zero =>
        simp only [List.getElem?_cons_zero, Option.some.injEq] at ha
        subst ha
        rw [regPos_zero_map]
        exact posAfter_lt_regPos (spliced L d) ds _ j d b (spliced_getElem?_stop L d)
          (by simpa using hj) hb hs
      | succ i =>
        rw [regPos_succ_map]
        exact ih (spliced L d) i j (by omega) (by simpa using ha) (by simpa using hj)

/-! ## Registration calls -/

theorem Hook.register_eq_tap (h : Hook) (r : Registration) :
    h.register r = h._tap r.method.type r.options r.fn := by
  unfold Hook.register
  cases r.method <;> rfl

theorem Hook.register_state (h : Hook) (r : Registration) :
    (h.register r).1
      = match r.descriptor with
        | none => h
        | some d => (h._insert (runRegisterLoop h.interceptors d)).1 := by
  rw [Hook.register_eq_tap]
  unfold Hook._tap Registration.descriptor Registration.candidate
  cases candidate r.method.type r.options r.fn <;> rfl

theorem Hook.insert_interceptors (h : Hook) (d : Tap) :
    (h._insert d).1.interceptors = h.interceptors := rfl

/-- The taps after a sequence of registration calls: the descriptors of the
calls that pass validation, rewritten by the interceptors, inserted in turn. -/
theorem Hook.registerAll_taps (h : Hook) (rs : List Registration) :
    (h.registerAll rs).taps
        = Tapable.insertAll h.taps ((descriptors rs).map (runRegisterLoop h.interceptors))
    ∧ (h.registerAll rs).interceptors = h.interceptors := by
  induction rs generalizing h with
  | nil => exact ⟨rfl, rfl⟩
  | cons r rs ih =>
    have hstep : Hook.registerAll h (r :: rs) = Hook.registerAll (h.register r).1 rs := rfl
    rw [hstep, Hook.register_state]
    cases hd : r.descriptor with
    | none =>
      have : descriptors (r :: rs) = descriptors rs := by
        simp [descriptors, List.filterMap_cons, hd]
      rw [this]
      exact ih h
    | some d =>
      have : descriptors (r :: rs) = d :: descriptors rs := by
        simp [descriptors, List.filterMap_cons, hd]
      rw [this]
      obtain ⟨h1, h2⟩ := ih (h._insert (runRegisterLoop h.interceptors d)).1
      simp only [Hook.insert_interceptors] at h1 h2
      exact ⟨by rw [h1]; rfl, h2⟩

theorem Hook.registerAll_new_taps (args : List String) (name : Option String)
    (rs : List Registration) :
    ((Hook.new args name).registerAll rs).taps = (splicedAll [] (descriptors rs)).map some := by
  have h1 := (Hook.registerAll_taps (Hook.new args name) rs).1
  have h2 : (descriptors rs).map (runRegisterLoop (Hook.new args name).interceptors)
      = descriptors rs := by
    have : runRegisterLoop (Hook.new args name).interceptors = id := by
      funext d; rfl
    rw [this, List.map_id]
  rw [h1, h2]
  exact insertAll_map_some [] (descriptors rs)

/-! ## The order kept by insertions -/

/-- The relation kept along the array: a tap without a `before` constraint
has a stage not greater than the stage of any tap to its right. -/
theorem spliced_pairwise (L : List Tap) (d : Tap)
    (hL : L.Pairwise (fun a b => a.before = Before.absent → itemStage a ≤ itemStage b)) :
    (spliced L d).Pairwise (fun a b => a.before = Before.absent → itemStage a ≤ itemStage b) := by
  obtain ⟨A, B, hAB, -, hA, hB, hlast, hright⟩ := stopIndex_split L d
  rw [spliced, hA, hB]
  rw [hAB, List.pairwise_append] at hL
  obtain ⟨pA, pB, pAB⟩ := hL
  rw [List.pairwise_append]
  refine ⟨pA, ?_, ?_⟩
  · rw [List.pairwise_cons]
    refine ⟨fun b hb hd => ?_, pB⟩
    exact le_of_lt (hright (Or.inl ((beforeSet_eq_none_iff d).mpr hd)) b hb)
  · intro a ha b hb
    rcases List.mem_cons.mp hb with rfl | hb
    · -- `a` is in the part left in place, whose last element stopped the scan
      intro hna
      rcases List.eq_nil_or_concat A with hnil | ⟨A0, y, hAy⟩
      · rw [hnil] at ha; simp at ha
      · rw [List.concat_eq_append] at hAy
        have hy : itemStage y ≤ itemStage b := hlast y (by simp [hAy])
        rw [hAy] at ha pA
        rcases List.mem_append.mp ha with ha0 | hay
        · have := (List.pairwise_append.mp pA).2.2 a ha0 y (by simp) hna
          omega
        · simp only [List.mem_singleton] at hay
          rw [hay]; exact hy
    · exact pAB a ha b hb

theorem splicedAll_pairwise (L : List Tap) (ds : List Tap)
    (hL : L.Pairwise (fun a b => a.before = Before.absent → itemStage a ≤ itemStage b)) :
    (splicedAll L ds).Pairwise
      (fun a b => a.before = Before.absent → itemStage a ≤ itemStage b) := by
  induction ds generalizing L with
  | nil => exact hL
  | cons d ds ih => exact ih (spliced L d) (spliced_pairwise L d hL)

theorem spliced_perm (L : List Tap) (d : Tap) : (spliced L d).Perm (L ++ [d]) := by
  have h1 : (spliced L d).Perm (d :: (L.take (stopIndex L d) ++ L.drop (stopIndex L d))) :=
    List.perm_middle
  rw [List.take_append_drop] at h1
  exact h1.trans (List.perm_append_singleton d L).symm

theorem splicedAll_perm (L : List Tap) (ds : List Tap) : (splicedAll L ds).Perm (L ++ ds) := by
  induction ds generalizing L with
  | nil => simp [splicedAll]
  | cons d ds ih =>
    have := ih (spliced L d)
    simp only [splicedAll, List.foldl_cons] at this ⊢
    refine this.trans ?_
    have h2 := (spliced_perm L d).append_right ds
    simpa using h2

/-- Taps of one stage stay in registration order when the new descriptor
declares no `before` constraint. -/
theorem spliced_filter (L : List Tap) (d : Tap) (s : Int) (hd : d.before = Before.absent) :
    (spliced L d).filter (fun t => decide (itemStage t = s))
      = (L ++ [d]).filter (fun t => decide (itemStage t = s)) := by
  obtain ⟨A, B, hAB, -, hA, hB, -, hright⟩ := stopIndex_split L d
  have hBgt := hright (Or.inl ((beforeSet_eq_none_iff d).mpr hd))
  rw [spliced, hA, hB]
  conv_rhs => rw [hAB]
  by_cases hs : itemStage d = s
  · have hBnil : B.filter (fun t => decide (itemStage t = s)) = [] := by
      rw [List.filter_eq_nil_iff]
      intro b hb
      have := hBgt b hb
      simp only [decide_eq_true_eq]
      omega
    simp [List.filter_append, List.filter_cons, hs, hBnil]
  · simp [List.filter_append, List.filter_cons, hs]

theorem splicedAll_filter (L : List Tap) (ds : List Tap) (s : Int)
    (hd : ∀ d ∈ ds, d.before = Before.absent) :
    (splicedAll L ds).filter (fun t => decide (itemStage t = s))
      = (L ++ ds).filter (fun t => decide (itemStage t = s)) := by
  induction ds generalizing L with
  | nil => simp [splicedAll]
  | cons d ds ih =>
    have := ih (spliced L d) (fun e he => hd e (List.mem_cons_of_mem _ he))
    simp only [splicedAll, List.foldl_cons] at this ⊢
    rw [this, List.filter_append, spliced_filter L d s (hd d (List.mem_cons_self _ _))]
    rw [← List.filter_append, List.append_assoc, List.singleton_append]

/-! ## Ordering of the tap array -/

theorem pairwise_getElem? {R : Tap → Tap → Prop} {l : List Tap} (hl : l.Pairwise R)
    {p q : Nat} {a b : Tap} (hpq : p < q) (ha : l[p]? = some a) (hb : l[q]? = some b) :
    R a b := by
  obtain ⟨hp, rfl⟩ := List.getElem?_eq_some.mp ha
  obtain ⟨hq, rfl⟩ := List.getElem?_eq_some.mp hb
  exact List.pairwise_iff_getElem.mp hl p q hp hq hpq

/-- C1: after any sequence of `tap`/`tapAsync`/`tapPromise` calls on a fresh
hook in which no descriptor declares a `before` constraint, `taps` holds
exactly the descriptors of the calls that passed validation, with stages
(a missing stage counting as 0) non-decreasing along the array and, for
every stage, the taps of that stage in registration order: the stable sort
by stage of the registration sequence. -/
theorem taps_stable_sorted (args : List String) (name : Option String)
    (rs : List Registration)
    (hb : ∀ d ∈ descriptors rs, d.before = Before.absent) :
    ∃ S : List Tap, ((Hook.new args name).registerAll rs).taps = S.map some
      ∧ S.Pairwise (fun a b => itemStage a ≤ itemStage b)
      ∧ S.Perm (descriptors rs)
      ∧ ∀ s : Int, S.filter (fun t => decide (itemStage t = s))
          = (descriptors rs).filter (fun t => decide (itemStage t = s)) := by
  have hperm : (splicedAll [] (descriptors rs)).Perm (descriptors rs) := by
    simpa using splicedAll_perm [] (descriptors rs)
  refine ⟨splicedAll [] (descriptors rs), Hook.registerAll_new_taps args name rs, ?_, hperm, ?_⟩
  · have hp := splicedAll_pairwise [] (descriptors rs) List.Pairwise.nil
    exact hp.imp_of_mem (fun {a b} ha _ hab => hab (hb a (hperm.mem_iff.mp ha)))
  · intro s
    simpa using splicedAll_filter [] (descriptors rs) s hb

theorem taps_stable_sorted_witness :
    (∀ d ∈ descriptors plainRegs, d.before = Before.absent)
    ∧ ∃ S : List Tap, ((Hook.new ["x"] none).registerAll plainRegs).taps = S.map some
      ∧ S.Pairwise (fun a b => itemStage a ≤ itemStage b)
      ∧ S.Perm (descriptors plainRegs)
      ∧ ∀ s : Int, S.filter (fun t => decide (itemStage t = s))
          = (descriptors plainRegs).filter (fun t => decide (itemStage t = s)) :=
  ⟨by decide, taps_stable_sorted ["x"] none plainRegs (by decide)⟩

/-- C2, the claim as stated fails: with two registered taps named `n`,
`_insert` of a descriptor with `before: "n"` stores it at index 1, after
the tap named `n` at index 0. -/
theorem before_duplicate_name_counterexample :
    dupHook.taps = [some sampleN1, some sampleN2]
    ∧ sampleN1.name = "n" ∧ sampleN2.name = "n" ∧ sampleM.before = Before.str "n"
    ∧ (dupHook._insert sampleM).1.taps = [some sampleN1, some sampleM, some sampleN2]
    ∧ insertIndex dupHook.taps sampleM = 1
    ∧ ¬ (insertIndex dupHook.taps sampleM < shiftPos (insertIndex dupHook.taps sampleM) 0) := by
  decide

/-- C2, amended: when the `before` constraint of `A` contains the name `n`,
`_insert(A)` stores `A` at an index strictly smaller than the index of the
last tap of the array named `n` (so of every tap named `n` when only one
bears that name), whatever the stages are; and after any further `_insert`
calls `A` is still found at a strictly smaller index than that tap. -/
theorem insert_before_last_named (h : Hook) (L : List Tap) (A B : Tap) (n : String)
    (j : Nat) (later : List Tap)
    (hL : h.taps = L.map some) (hn : A.namesBefore n)
    (hB : L[j]? = some B) (hname : B.name = n)
    (hlast : ∀ j2 t, j < j2 → L[j2]? = some t → t.name ≠ n) :
    (h._insert A).2 = none
    ∧ arrayGet (h._insert A).1.taps (insertIndex h.taps A) = some A
    ∧ arrayGet (h._insert A).1.taps (j + 1) = some B
    ∧ insertIndex h.taps A < j + 1
    ∧ arrayGet ((h._insert A).1.insertAll later).taps
        (posAfter (h._insert A).1.taps later (insertIndex h.taps A)) = some A
    ∧ arrayGet ((h._insert A).1.insertAll later).taps
        (posAfter (h._insert A).1.taps later (j + 1)) = some B
    ∧ posAfter (h._insert A).1.taps later (insertIndex h.taps A)
        < posAfter (h._insert A).1.taps later (j + 1) := by
  obtain ⟨names, hb, hmem⟩ := (namesBefore_iff A n).mp hn
  have hjlt : j < L.length := (List.getElem?_eq_some.mp hB).1
  -- the scan passes the last tap named `n`
  have hk : stopIndex L A ≤ j := by
    have hsplit : L.reverse = (L.drop (j + 1)).reverse ++ B :: (L.take j).reverse := by
      have h1 : L = L.take j ++ B :: L.drop (j + 1) := by
        have hBj : L[j] = B := (List.getElem?_eq_some.mp hB).2
        conv_lhs => rw [← List.take_append_drop j L, List.drop_eq_getElem_cons hjlt, hBj]
      conv_lhs => rw [h1]
      simp
    have hpass := stopRev_passes (itemStage A) (L.drop (j + 1)).reverse B (L.take j).reverse
      names (by rw [hname]; exact hmem) (by
        intro y hy
        rw [List.mem_reverse] at hy
        obtain ⟨m, hm⟩ := List.mem_iff_getElem?.mp hy
        rw [List.getElem?_drop] at hm
        rw [hname]
        exact hlast (j + 1 + m) y (by omega) hm)
    rw [← hsplit, ← hb] at hpass
    have hlen : (L.take j).reverse.length = j := by
      simp only [List.length_reverse, List.length_take]; omega
    rw [hlen] at hpass
    exact hpass
  have hshift : shiftPos (stopIndex L A) j = j + 1 := by
    simp only [shiftPos]
    rw [if_neg (by omega)]
  have hA1 : (spliced L A)[stopIndex L A]? = some A := spliced_getElem?_stop L A
  have hB1 : (spliced L A)[j + 1]? = some B := by
    rw [← hshift, spliced_getElem?_shift]; exact hB
  have htaps : (h._insert A).1.taps = (spliced L A).map some := by
    rw [Hook.insert_taps, hL, insertInto_map_some_fst]
  have hidx : insertIndex h.taps A = stopIndex L A := by rw [hL, insertIndex_map_some]
  have hall : ((h._insert A).1.insertAll later).taps
      = (splicedAll (spliced L A) later).map some := by
    rw [Hook.insertAll_taps, htaps, insertAll_map_some]
  rw [hall, htaps, hidx]
  simp only [arrayGet_map_some]
  refine ⟨?_, hA1, hB1, by omega, ?_, ?_, posAfter_lt _ _ (by omega)⟩
  · rw [Hook.insert_error, hL, insertInto_map_some]
  · rw [posAfter_getElem?]; exact hA1
  · rw [posAfter_getElem?]; exact hB1

theorem insert_before_last_named_witness :
    dupHook.taps = [sampleN1, sampleN2].map some
    ∧ sampleM.namesBefore "n"
    ∧ [sampleN1, sampleN2][1]? = some sampleN2
    ∧ sampleN2.name = "n"
    ∧ (∀ j2 t, 1 < j2 → [sampleN1, sampleN2][j2]? = some t → t.name ≠ "n")
    ∧ (dupHook._insert sampleM).2 = none
    ∧ arrayGet (dupHook._insert sampleM).1.taps (insertIndex dupHook.taps sampleM) = some sampleM
    ∧ arrayGet (dupHook._insert sampleM).1.taps (1 + 1) = some sampleN2
    ∧ insertIndex dupHook.taps sampleM < 1 + 1
    ∧ arrayGet ((dupHook._insert sampleM).1.insertAll [sampleA, sampleZ]).taps
        (posAfter (dupHook._insert sampleM).1.taps [sampleA, sampleZ]
          (insertIndex dupHook.taps sampleM)) = some sampleM
    ∧ arrayGet ((dupHook._insert sampleM).1.insertAll [sampleA, sampleZ]).taps
        (posAfter (dupHook._insert sampleM).1.taps [sampleA, sampleZ] (1 + 1)) = some sampleN2
    ∧ posAfter (dupHook._insert sampleM).1.taps [sampleA, sampleZ]
          (insertIndex dupHook.taps sampleM)
        < posAfter (dupHook._insert sampleM).1.taps [sampleA, sampleZ] (1 + 1) :=
  have hlast : ∀ j2 t, 1 < j2 → [sampleN1, sampleN2][j2]? = some t → t.name ≠ "n" := by
    intro j2 t hj ht
    have : [sampleN1, sampleN2][j2]? = none := List.getElem?_eq_none (by simpa using hj)
    rw [this] at ht
    cases ht
  ⟨by decide, by simp [Tap.namesBefore, sampleM], by decide, by decide, hlast,
    insert_before_last_named dupHook [sampleN1, sampleN2] sampleM sampleN2 "n" 1
      [sampleA, sampleZ] (by decide) (by simp [Tap.namesBefore, sampleM]) (by decide)
      (by decide) hlast⟩

/-- C5, the claim as stated fails: `a` (stage 1) is registered, then `z`
(stage 5, `before: ["missing"]`); neither names the other, `a` has the
smaller stage and was registered first, and yet `z` is stored before `a`. -/
theorem stage_order_counterexample :
    descriptors sampleRegs
      = [ { type := "sync", fn := 1, name := "a", stage := some 1 },
          { type := "sync", fn := 2, name := "z", stage := some 5,
            before := Before.arr ["missing"] } ]
    ∧ (Hook.new.registerAll sampleRegs).taps
      = [ some { type := "sync", fn := 2, name := "z", stage := some 5,
                 before := Before.arr ["missing"] },
          some { type := "sync", fn := 1, name := "a", stage := some 1 } ]
    ∧ regPos [] (descriptors sampleRegs) 0 = 1
    ∧ regPos [] (descriptors sampleRegs) 1 = 0 := by
  decide

/-- C5, amended: among the taps registered on a fresh hook by
`tap`/`tapAsync`/`tapPromise` calls, let `B` declare no `before` constraint
(`A` and the other taps may declare any).  If `A.stage < B.stage` then `A` is
stored before `B` whichever was registered first, and if the stages are
equal and `A` was registered before `B` then `A` is stored before `B`. -/
theorem free_tap_ordered (args : List String) (name : Option String)
    (rs : List Registration) (i j : Nat) (A B : Tap)
    (hA : (descriptors rs)[i]? = some A) (hB : (descriptors rs)[j]? = some B)
    (hb : B.before = Before.absent) :
    arrayGet ((Hook.new args name).registerAll rs).taps (regPos [] (descriptors rs) i) = some A
    ∧ arrayGet ((Hook.new args name).registerAll rs).taps (regPos [] (descriptors rs) j)
        = some B
    ∧ (itemStage A < itemStage B →
        regPos [] (descriptors rs) i < regPos [] (descriptors rs) j)
    ∧ (itemStage A = itemStage B → i < j →
        regPos [] (descriptors rs) i < regPos [] (descriptors rs) j) := by
  have hi : i < (descriptors rs).length := (List.getElem?_eq_some.mp hA).1
  have hj : j < (descriptors rs).length := (List.getElem?_eq_some.mp hB).1
  have hpi : (splicedAll [] (descriptors rs))[regPos [] (descriptors rs) i]? = some A := by
    rw [← hA]; exact regPos_getElem? [] (descriptors rs) i hi
  have hpj : (splicedAll [] (descriptors rs))[regPos [] (descriptors rs) j]? = some B := by
    rw [← hB]; exact regPos_getElem? [] (descriptors rs) j hj
  rw [Hook.registerAll_new_taps]
  simp only [arrayGet_map_some]
  refine ⟨hpi, hpj, ?_, ?_⟩
  · intro hlt
    have hp := splicedAll_pairwise [] (descriptors rs) List.Pairwise.nil
    rcases Nat.lt_trichotomy (regPos [] (descriptors rs) i) (regPos [] (descriptors rs) j)
      with h1 | h1 | h1
    · exact h1
    · rw [h1, hpj] at hpi
      simp only [Option.some.injEq] at hpi
      rw [hpi] at hlt
      omega
    · have := pairwise_getElem? hp h1 hpj hpi hb
      omega
  · intro heq hij
    exact regPos_lt_of_stage_le [] (descriptors rs) i j A B hij hA hB hb (le_of_eq heq)

theorem free_tap_ordered_witness :
    (descriptors plainRegs)[2]? = some ⟨"promise", 3, "c", some (-10), Before.absent, []⟩
    ∧ (descriptors plainRegs)[1]? = some ⟨"async", 2, "b", none, Before.absent, []⟩
    ∧ (⟨"async", 2, "b", none, Before.absent, []⟩ : Tap).before = Before.absent
    ∧ arrayGet ((Hook.new ["x"] none).registerAll plainRegs).taps
        (regPos [] (descriptors plainRegs) 2) = some ⟨"promise", 3, "c", some (-10), Before.absent, []⟩
    ∧ arrayGet ((Hook.new ["x"] none).registerAll plainRegs).taps
        (regPos [] (descriptors plainRegs) 1) = some ⟨"async", 2, "b", none, Before.absent, []⟩
    ∧ (itemStage ⟨"promise", 3, "c", some (-10), Before.absent, []⟩
          < itemStage ⟨"async", 2, "b", none, Before.absent, []⟩ →
        regPos [] (descriptors plainRegs) 2 < regPos [] (descriptors plainRegs) 1)
    ∧ (itemStage ⟨"promise", 3, "c", some (-10), Before.absent, []⟩
          = itemStage ⟨"async", 2, "b", none, Before.absent, []⟩ → 2 < 1 →
        regPos [] (descriptors plainRegs) 2 < regPos [] (descriptors plainRegs) 1) :=
  ⟨by decide, by decide, rfl,
    free_tap_ordered ["x"] none plainRegs 2 1 ⟨"promise", 3, "c", some (-10), Before.absent, []⟩
      ⟨"async", 2, "b", none, Before.absent, []⟩ (by decide) (by decide) rfl⟩

/-! ## The lazy call cache -/

theorem Hook.insert_delegatesKept (h : Hook) (d : Tap) (hk : h.delegatesKept) :
    (h._insert d).1.delegatesKept := hk

theorem Hook.tap_delegatesKept (h : Hook) (type : String) (options : TapOptions) (fn : Fn)
    (hk : h.delegatesKept) : (h._tap type options fn).1.delegatesKept := by
  unfold Hook._tap
  cases candidate type options fn with
  | error e => exact hk
  | ok c => exact hk

theorem Hook.intercept_delegatesKept (h : Hook) (i : Interceptor) (hk : h.delegatesKept) :
    (h.intercept i).delegatesKept := by
  unfold Hook.intercept
  cases i.register <;> exact hk

theorem Entry.invoke_delegatesKept (compile : Compiler) (e : Entry) (h : Hook)
    (args : List Val) (hk : h.delegatesKept) : (e.invoke compile h args).state.delegatesKept := by
  cases e with
  | compiled f => exact hk
  | CALL_DELEGATE =>
    simp only [Entry.invoke]
    cases h._createCall compile "sync" <;> exact hk
  | CALL_ASYNC_DELEGATE =>
    simp only [Entry.invoke]
    cases h._createCall compile "async" <;> exact hk
  | PROMISE_DELEGATE =>
    simp only [Entry.invoke]
    cases h._createCall compile "promise" <;> exact hk

theorem Hook.step_delegatesKept (compile : Compiler) (h : Hook) (op : Op)
    (hk : h.delegatesKept) : (h.step compile op).1.delegatesKept := by
  cases op with
  | tap o fn => exact Hook.tap_delegatesKept h _ o fn hk
  | tapAsync o fn => exact Hook.tap_delegatesKept h _ o fn hk
  | tapPromise o fn => exact Hook.tap_delegatesKept h _ o fn hk
  | intercept i => exact Hook.intercept_delegatesKept h i hk
  | call a => exact Entry.invoke_delegatesKept compile _ h a hk
  | callAsync a => exact Entry.invoke_delegatesKept compile _ h a hk
  | promise a => exact Entry.invoke_delegatesKept compile _ h a hk

/-- In every state reached from a fresh hook the private fields still hold
the three delegates. -/
theorem Hook.run_delegatesKept (compile : Compiler) (h : Hook) (ops : List Op)
    (hk : h.delegatesKept) : (h.run compile ops).delegatesKept := by
  induction ops generalizing h with
  | nil => exact hk
  | cons op ops ih => exact ih _ (Hook.step_delegatesKept compile h op hk)

theorem Hook.tap_ok_entries (h : Hook) (type : String) (options : TapOptions) (fn : Fn)
    (hok : (h._tap type options fn).2 = none) :
    (h._tap type options fn).1.call = h._call
    ∧ (h._tap type options fn).1.callAsync = h._callAsync
    ∧ (h._tap type options fn).1.promise = h._promise := by
  unfold Hook._tap at hok ⊢
  cases hc : candidate type options fn with
  | error e => rw [hc] at hok; cases hok
  | ok c => exact ⟨rfl, rfl, rfl⟩

theorem Hook.intercept_entries (h : Hook) (i : Interceptor) :
    (h.intercept i).call = h._call ∧ (h.intercept i).callAsync = h._callAsync
    ∧ (h.intercept i).promise = h._promise := by
  unfold Hook.intercept
  cases i.register <;> exact ⟨rfl, rfl, rfl⟩

theorem Entry.invoke_call_delegate (compile : Compiler) (h : Hook) (args : List Val) :
    (Entry.CALL_DELEGATE.invoke compile h args).compiles = [h.compileOptions "sync"] := by
  simp only [Entry.invoke]
  cases h._createCall compile "sync" <;> rfl

theorem Entry.invoke_call_async_delegate (compile : Compiler) (h : Hook) (args : List Val) :
    (Entry.CALL_ASYNC_DELEGATE.invoke compile h args).compiles = [h.compileOptions "async"] := by
  simp only [Entry.invoke]
  cases h._createCall compile "async" <;> rfl

theorem Entry.invoke_promise_delegate (compile : Compiler) (h : Hook) (args : List Val) :
    (Entry.PROMISE_DELEGATE.invoke compile h args).compiles = [h.compileOptions "promise"] := by
  simp only [Entry.invoke]
  cases h._createCall compile "promise" <;> rfl

/-- C6: in every state reached from a fresh hook by any sequence of method
calls, after a `tap`, `tapAsync`, `tapPromise` or `intercept` call that
does not throw, `call`, `callAsync` and `promise` hold the three bootstrap
delegates again, and the next invocation of each calls `compile` once, with
the taps and interceptors of the state after that registration. -/
theorem registration_resets_entries (compile : Compiler) (args : List String)
    (name : Option String) (ops : List Op) (op : Op) (a : List Val)
    (hop : op.isRegistration = true)
    (hok : (((Hook.new args name).run compile ops).step compile op).2 = none) :
    (((Hook.new args name).run compile ops).step compile op).1.call = Entry.CALL_DELEGATE
    ∧ (((Hook.new args name).run compile ops).step compile op).1.callAsync
        = Entry.CALL_ASYNC_DELEGATE
    ∧ (((Hook.new args name).run compile ops).step compile op).1.promise
        = Entry.PROMISE_DELEGATE
    ∧ ((((Hook.new args name).run compile ops).step compile op).1.invokeCall compile a).compiles
        = [⟨(((Hook.new args name).run compile ops).step compile op).1.taps,
            (((Hook.new args name).run compile ops).step compile op).1.interceptors,
            args, "sync"⟩]
    ∧ ((((Hook.new args name).run compile ops).step compile op).1.invokeCallAsync
          compile a).compiles
        = [⟨(((Hook.new args name).run compile ops).step compile op).1.taps,
            (((Hook.new args name).run compile ops).step compile op).1.interceptors,
            args, "async"⟩]
    ∧ ((((Hook.new args name).run compile ops).step compile op).1.invokePromise
          compile a).compiles
        = [⟨(((Hook.new args name).run compile ops).step compile op).1.taps,
            (((Hook.new args name).run compile ops).step compile op).1.interceptors,
            args, "promise"⟩] := by
  have hk : ((Hook.new args name).run compile ops).delegatesKept :=
    Hook.run_delegatesKept compile _ ops ⟨rfl, rfl, rfl⟩
  have hargs : ∀ (h : Hook) (o : Op), (h.step compile o).1._args = h._args := by
    intro h o
    cases o with
    | tap o fn =>
      simp only [Hook.step, Hook.tap, Hook._tap]
      cases candidate "sync" o fn <;> rfl
    | tapAsync o fn =>
      simp only [Hook.step, Hook.tapAsync, Hook._tap]
      cases candidate "async" o fn <;> rfl
    | tapPromise o fn =>
      simp only [Hook.step, Hook.tapPromise, Hook._tap]
      cases candidate "promise" o fn <;> rfl
    | intercept i =>
      simp only [Hook.step, Hook.intercept]
      cases i.register <;> rfl
    | call a =>
      simp only [Hook.step, Hook.invokeCall]
      cases h.call <;> simp only [Entry.invoke]
      · cases h._createCall compile "sync" <;> rfl
      · cases h._createCall compile "async" <;> rfl
      · cases h._createCall compile "promise" <;> rfl
    | callAsync a =>
      simp only [Hook.step, Hook.invokeCallAsync]
      cases h.callAsync <;> simp only [Entry.invoke]
      · cases h._createCall compile "sync" <;> rfl
      · cases h._createCall compile "async" <;> rfl
      · cases h._createCall compile "promise" <;> rfl
    | promise a =>
      simp only [Hook.step, Hook.invokePromise]
      cases h.promise <;> simp only [Entry.invoke]
      · cases h._createCall compile "sync" <;> rfl
      · cases h._createCall compile "async" <;> rfl
      · cases h._createCall compile "promise" <;> rfl
  have hrun : ((Hook.new args name).run compile ops)._args = args := by
    have : ∀ (l : List Op) (h : Hook), (h.run compile l)._args = h._args := by
      intro l
      induction l with
      | nil => intro h; rfl
      | cons o l ih =>
        intro h
        have h1 : Hook.run compile h (o :: l) = Hook.run compile (h.step compile o).1 l := rfl
        rw [h1, ih, hargs]
    rw [this]; rfl
  generalize (Hook.new args name).run compile ops = h at hk hok hrun ⊢
  have hentries : (h.step compile op).1.call = Entry.CALL_DELEGATE
      ∧ (h.step compile op).1.callAsync = Entry.CALL_ASYNC_DELEGATE
      ∧ (h.step compile op).1.promise = Entry.PROMISE_DELEGATE := by
    obtain ⟨k1, k2, k3⟩ := hk
    cases op with
    | tap o fn =>
      have := Hook.tap_ok_entries h "sync" o fn hok
      rw [k1, k2, k3] at this; exact this
    | tapAsync o fn =>
      have := Hook.tap_ok_entries h "async" o fn hok
      rw [k1, k2, k3] at this; exact this
    | tapPromise o fn =>
      have := Hook.tap_ok_entries h "promise" o fn hok
      rw [k1, k2, k3] at this; exact this
    | intercept i =>
      have := Hook.intercept_entries h i
      rw [k1, k2, k3] at this; exact this
    | call a => cases hop
    | callAsync a => cases hop
    | promise a => cases hop
  have ha : (h.step compile op).1._args = args := by rw [hargs, hrun]
  obtain ⟨e1, e2, e3⟩ := hentries
  refine ⟨e1, e2, e3, ?_, ?_, ?_⟩
  · rw [Hook.invokeCall, e1, Entry.invoke_call_delegate, Hook.compileOptions, ha]
  · rw [Hook.invokeCallAsync, e2, Entry.invoke_call_async_delegate, Hook.compileOptions, ha]
  · rw [Hook.invokePromise, e3, Entry.invoke_promise_delegate, Hook.compileOptions, ha]

theorem registration_resets_entries_witness :
    (Op.tapAsync (TapOptions.str "b") 2).isRegistration = true
    ∧ (sampleState.step sampleCompile (Op.tapAsync (TapOptions.str "b") 2)).2 = none
    ∧ (sampleState.step sampleCompile (Op.tapAsync (TapOptions.str "b") 2)).1.call
        = Entry.CALL_DELEGATE
    ∧ (sampleState.step sampleCompile (Op.tapAsync (TapOptions.str "b") 2)).1.callAsync
        = Entry.CALL_ASYNC_DELEGATE
    ∧ (sampleState.step sampleCompile (Op.tapAsync (TapOptions.str "b") 2)).1.promise
        = Entry.PROMISE_DELEGATE
    ∧ ((sampleState.step sampleCompile (Op.tapAsync (TapOptions.str "b") 2)).1.invokeCall
          sampleCompile [7]).compiles
        = [⟨(sampleState.step sampleCompile (Op.tapAsync (TapOptions.str "b") 2)).1.taps,
            (sampleState.step sampleCompile (Op.tapAsync (TapOptions.str "b") 2)).1.interceptors,
            ["x"], "sync"⟩]
    ∧ ((sampleState.step sampleCompile (Op.tapAsync (TapOptions.str "b") 2)).1.invokeCallAsync
          sampleCompile [7]).compiles
        = [⟨(sampleState.step sampleCompile (Op.tapAsync (TapOptions.str "b") 2)).1.taps,
            (sampleState.step sampleCompile (Op.tapAsync (TapOptions.str "b") 2)).1.interceptors,
            ["x"], "async"⟩]
    ∧ ((sampleState.step sampleCompile (Op.tapAsync (TapOptions.str "b") 2)).1.invokePromise
          sampleCompile [7]).compiles
        = [⟨(sampleState.step sampleCompile (Op.tapAsync (TapOptions.str "b") 2)).1.taps,
            (sampleState.step sampleCompile (Op.tapAsync (TapOptions.str "b") 2)).1.interceptors,
            ["x"], "promise"⟩] :=
  ⟨rfl, by decide,
    registration_resets_entries sampleCompile ["x"] none
      [Op.tap (TapOptions.str "a") 1, Op.call [1, 2], Op.promise [], Op.intercept tagInterceptor]
      (Op.tapAsync (TapOptions.str "b") 2) [7] rfl (by decide)⟩

/-- C7: invoking `call` while it holds its bootstrap delegate calls `compile`
exactly once, with the current taps, the current interceptors, the
constructor's `args` and the type `"sync"`; when `compile` returns an
invocable, it is stored in `call` alone (every other field keeps its
value) and its result on the original arguments is returned, and a further
invocation of `call` does not call `compile` and returns the invocable's
result.  The same holds for `callAsync` with `"async"` and for `promise`
with `"promise"`. -/
theorem stub_compiles_once (compile : Compiler) (h : Hook) (args args2 : List Val) :
    (h.call = Entry.CALL_DELEGATE →
      (h.invokeCall compile args).compiles = [⟨h.taps, h.interceptors, h._args, "sync"⟩]
      ∧ ∀ f, compile ⟨h.taps, h.interceptors, h._args, "sync"⟩ = Except.ok f →
          (h.invokeCall compile args).state = { h with call := Entry.compiled f }
          ∧ (h.invokeCall compile args).state.callAsync = h.callAsync
          ∧ (h.invokeCall compile args).state.promise = h.promise
          ∧ (h.invokeCall compile args).result = Except.ok (f.run args)
          ∧ ((h.invokeCall compile args).state.invokeCall compile args2).compiles = []
          ∧ ((h.invokeCall compile args).state.invokeCall compile args2).result
              = Except.ok (f.run args2)
          ∧ ((h.invokeCall compile args).state.invokeCall compile args2).state
              = (h.invokeCall compile args).state)
    ∧ (h.callAsync = Entry.CALL_ASYNC_DELEGATE →
      (h.invokeCallAsync compile args).compiles = [⟨h.taps, h.interceptors, h._args, "async"⟩]
      ∧ ∀ f, compile ⟨h.taps, h.interceptors, h._args, "async"⟩ = Except.ok f →
          (h.invokeCallAsync compile args).state = { h with callAsync := Entry.compiled f }
          ∧ (h.invokeCallAsync compile args).state.call = h.call
          ∧ (h.invokeCallAsync compile args).state.promise = h.promise
          ∧ (h.invokeCallAsync compile args).result = Except.ok (f.run args)
          ∧ ((h.invokeCallAsync compile args).state.invokeCallAsync compile args2).compiles = []
          ∧ ((h.invokeCallAsync compile args).state.invokeCallAsync compile args2).result
              = Except.ok (f.run args2)
          ∧ ((h.invokeCallAsync compile args).state.invokeCallAsync compile args2).state
              = (h.invokeCallAsync compile args).state)
    ∧ (h.promise = Entry.PROMISE_DELEGATE →
      (h.invokePromise compile args).compiles = [⟨h.taps, h.interceptors, h._args, "promise"⟩]
      ∧ ∀ f, compile ⟨h.taps, h.interceptors, h._args, "promise"⟩ = Except.ok f →
          (h.invokePromise compile args).state = { h with promise := Entry.compiled f }
          ∧ (h.invokePromise compile args).state.call = h.call
          ∧ (h.invokePromise compile args).state.callAsync = h.callAsync
          ∧ (h.invokePromise compile args).result = Except.ok (f.run args)
          ∧ ((h.invokePromise compile args).state.invokePromise compile args2).compiles = []
          ∧ ((h.invokePromise compile args).state.invokePromise compile args2).result
              = Except.ok (f.run args2)
          ∧ ((h.invokePromise compile args).state.invokePromise compile args2).state
              = (h.invokePromise compile args).state) := by
  refine ⟨fun he => ?_, fun he => ?_, fun he => ?_⟩
  · refine ⟨by rw [Hook.invokeCall, he, Entry.invoke_call_delegate]; rfl, fun f hf => ?_⟩
    have hc : h._createCall compile "sync" = Except.ok f := hf
    have hst : h.invokeCall compile args
        = ⟨{ h with call := Entry.compiled f }, Except.ok (f.run args),
            [h.compileOptions "sync"]⟩ := by
      rw [Hook.invokeCall, he]
      simp only [Entry.invoke, hc]
    rw [hst]
    exact ⟨rfl, rfl, rfl, rfl, rfl, rfl, rfl⟩
  · refine ⟨by rw [Hook.invokeCallAsync, he, Entry.invoke_call_async_delegate]; rfl,
      fun f hf => ?_⟩
    have hc : h._createCall compile "async" = Except.ok f := hf
    have hst : h.invokeCallAsync compile args
        = ⟨{ h with callAsync := Entry.compiled f }, Except.ok (f.run args),
            [h.compileOptions "async"]⟩ := by
      rw [Hook.invokeCallAsync, he]
      simp only [Entry.invoke, hc]
    rw [hst]
    exact ⟨rfl, rfl, rfl, rfl, rfl, rfl, rfl⟩
  · refine ⟨by rw [Hook.invokePromise, he, Entry.invoke_promise_delegate]; rfl,
      fun f hf => ?_⟩
    have hc : h._createCall compile "promise" = Except.ok f := hf
    have hst : h.invokePromise compile args
        = ⟨{ h with promise := Entry.compiled f }, Except.ok (f.run args),
            [h.compileOptions "promise"]⟩ := by
      rw [Hook.invokePromise, he]
      simp only [Entry.invoke, hc]
    rw [hst]
    exact ⟨rfl, rfl, rfl, rfl, rfl, rfl, rfl⟩

theorem stub_compiles_once_witness :
    sampleHook.call = Entry.CALL_DELEGATE
    ∧ sampleCompile ⟨sampleHook.taps, sampleHook.interceptors, sampleHook._args, "sync"⟩
        = Except.ok ⟨fun args => args.sum + 2⟩
    ∧ (sampleHook.invokeCall sampleCompile [1, 2]).compiles
        = [⟨sampleHook.taps, sampleHook.interceptors, sampleHook._args, "sync"⟩]
    ∧ (sampleHook.invokeCall sampleCompile [1, 2]).result = Except.ok 5
    ∧ ((sampleHook.invokeCall sampleCompile [1, 2]).state.invokeCall sampleCompile [4]).compiles
        = []
    ∧ ((sampleHook.invokeCall sampleCompile [1, 2]).state.invokeCall sampleCompile [4]).result
        = Except.ok 6 :=
  ⟨rfl, rfl,
    ((stub_compiles_once sampleCompile sampleHook [1, 2] [4]).1 rfl).1,
    (((stub_compiles_once sampleCompile sampleHook [1, 2] [4]).1 rfl).2
      ⟨fun args => args.sum + 2⟩ rfl).2.2.2.1,
    (((stub_compiles_once sampleCompile sampleHook [1, 2] [4]).1 rfl).2
      ⟨fun args => args.sum + 2⟩ rfl).2.2.2.2.1,
    (((stub_compiles_once sampleCompile sampleHook [1, 2] [4]).1 rfl).2
      ⟨fun args => args.sum + 2⟩ rfl).2.2.2.2.2.1⟩

/-! ## The interceptor pipeline -/

theorem runRegisterLoop_eq_foldl (is : List Interceptor) (c : Tap) :
    runRegisterLoop is c = is.foldl registerStep c := by
  induction is generalizing c with
  | nil => rfl
  | cons i is ih =>
    simp only [runRegisterLoop, List.foldl_cons, registerStep]
    cases i.register with
    | none => exact ih c
    | some r =>
      simp only
      cases r (some c) with
      | none => exact ih c
      | some c2 => exact ih c2

/-- C8: for a registration that passes validation, with candidate descriptor
`c`, `_runRegisterInterceptors` returns the left fold of `registerStep` over
the interceptors in the order they were added, starting from `c`, and that
fold is the descriptor `_tap` hands to `_insert`. -/
theorem tap_inserts_fold (h : Hook) (type : String) (options : TapOptions) (fn : Fn) (c : Tap)
    (hc : candidate type options fn = Except.ok c) :
    h._runRegisterInterceptors c = h.interceptors.foldl registerStep c
    ∧ h._tap type options fn = h._insert (h.interceptors.foldl registerStep c) := by
  have h1 : h._runRegisterInterceptors c = h.interceptors.foldl registerStep c :=
    runRegisterLoop_eq_foldl h.interceptors c
  refine ⟨h1, ?_⟩
  unfold Hook._tap
  rw [hc]
  simp only [h1]

theorem tap_inserts_fold_witness :
    candidate "sync" (TapOptions.str " b ") 2 = Except.ok ⟨"sync", 2, "b", none, Before.absent, []⟩
    ∧ sampleState._runRegisterInterceptors ⟨"sync", 2, "b", none, Before.absent, []⟩
        = sampleState.interceptors.foldl registerStep ⟨"sync", 2, "b", none, Before.absent, []⟩
    ∧ sampleState._tap "sync" (TapOptions.str " b ") 2
        = sampleState._insert
            (sampleState.interceptors.foldl registerStep
              ⟨"sync", 2, "b", none, Before.absent, []⟩) :=
  ⟨rfl,
    tap_inserts_fold sampleState "sync" (TapOptions.str " b ") 2
      ⟨"sync", 2, "b", none, Before.absent, []⟩ rfl⟩

theorem interceptLoop_eq_map (register : Slot → Slot) (todo done : List Slot) (fuel : Nat)
    (hf : todo.length ≤ fuel) :
    interceptLoop register fuel done.length (done ++ todo) = done ++ todo.map register := by
  induction todo generalizing done fuel with
  | nil =>
    cases fuel with
    | zero => simp [interceptLoop]
    | succ f => simp [interceptLoop]
  | cons x rest ih =>
    cases fuel with
    | zero => simp at hf
    | succ f =>
      have hlt : done.length < (done ++ x :: rest).length := by simp
      rw [interceptLoop, if_pos hlt, arrayGet_append_length, arraySet_append_length]
      have := ih (done ++ [register x]) f (by simpa using hf)
      simp only [List.length_append, List.length_singleton, List.append_assoc,
        List.singleton_append] at this
      simpa using this

theorem Hook.intercept_taps_register (h : Hook) (i : Interceptor) (r : Slot → Slot)
    (hr : i.register = some r) : (h.intercept i).taps = h.taps.map r := by
  unfold Hook.intercept
  simp only [hr]
  have := interceptLoop_eq_map r h.taps [] h.taps.length (le_refl _)
  simpa using this

theorem Interceptor.copy_of_own (i : Interceptor) (hown : i.registerOwn = true) :
    i.copy = i := by
  obtain ⟨register, rest, own⟩ := i
  simp only at hown
  subst hown
  rfl

theorem Hook.intercept_interceptors (h : Hook) (i : Interceptor) :
    (h.intercept i).interceptors = h.interceptors ++ [i.copy] := by
  unfold Hook.intercept
  cases i.register <;> rfl

/-- C9: `intercept(i)` appends a copy of `i` to the interceptors, holding the
own enumerable properties of `i` (so `i` itself when its register capability
is an own property); when `i` has a register capability, the tap array
becomes the pointwise image of the old array under it (same length, each
index rewritten in place), so that a register tagging descriptors with
`intercepted: true` leaves every registered descriptor tagged; without a
register capability the tap array is unchanged. -/
theorem intercept_rewrites_taps (h : Hook) (i : Interceptor) :
    (h.intercept i).interceptors = h.interceptors ++ [i.copy]
    ∧ i.copy.rest = i.rest
    ∧ i.copy.register = (if i.registerOwn = true then i.register else none)
    ∧ (i.registerOwn = true → (h.intercept i).interceptors = h.interceptors ++ [i])
    ∧ (∀ r, i.register = some r →
        (h.intercept i).taps = h.taps.map r
        ∧ (h.intercept i).taps.length = h.taps.length
        ∧ (∀ k, k < h.taps.length → arrayGet (h.intercept i).taps k = r (arrayGet h.taps k))
        ∧ ((∀ t, ∃ t2, r (some t) = some t2 ∧ t2.intercepted) →
            ∀ L : List Tap, h.taps = L.map some →
              ∀ s ∈ (h.intercept i).taps, ∃ t2, s = some t2 ∧ t2.intercepted))
    ∧ (i.register = none → (h.intercept i).taps = h.taps) := by
  refine ⟨Hook.intercept_interceptors h i, rfl, rfl, fun hown => ?_, fun r hr => ?_,
    fun hn => ?_⟩
  · rw [Hook.intercept_interceptors, Interceptor.copy_of_own i hown]
  · have hmap := Hook.intercept_taps_register h i r hr
    refine ⟨hmap, by rw [hmap, List.length_map], fun k hk => ?_, fun htag L hL s hs => ?_⟩
    · rw [hmap]
      simp only [arrayGet, List.get?_eq_getElem?, List.getElem?_map,
        List.getElem?_eq_getElem hk, Option.map_some']
    · rw [hmap, hL, List.map_map] at hs
      obtain ⟨t, -, rfl⟩ := List.mem_map.mp hs
      exact htag t
  · unfold Hook.intercept
    simp only [hn]
    rfl

theorem intercept_rewrites_taps_witness :
    tagInterceptor.register = some tagRegister
    ∧ (sampleHook.intercept tagInterceptor).interceptors = sampleHook.interceptors ++ [tagInterceptor]
    ∧ (sampleHook.intercept tagInterceptor).taps = sampleHook.taps.map tagRegister
    ∧ (sampleHook.intercept tagInterceptor).taps
        = [some { sampleB with extra := [("intercepted", "true")] },
           some { sampleA with extra := [("intercepted", "true")] }]
    ∧ plainInterceptor.register = none
    ∧ (sampleHook.intercept plainInterceptor).taps = sampleHook.taps :=
  ⟨rfl, (intercept_rewrites_taps sampleHook tagInterceptor).2.2.2.1 rfl,
    ((intercept_rewrites_taps sampleHook tagInterceptor).2.2.2.2.1 tagRegister rfl).1,
    by decide, rfl, (intercept_rewrites_taps sampleHook plainInterceptor).2.2.2.2.2 rfl⟩

/-! ## Validation of the registration options -/

/-- What `_tap` does hold to: a string that is empty after trimming, and an
options object whose `name` is missing, not a string or empty, throw
"Missing name for tap" and leave the hook as it was. -/
theorem missing_name_thrown (h : Hook) (type : String) (fn : Fn) :
    (∀ s, jsTrim s = "" →
      h._tap type (TapOptions.str s) fn = (h, some (JsError.error "Missing name for tap")))
    ∧ (∀ o : OptionsObject, (o.name = none ∨ o.name = some "") →
      h._tap type (TapOptions.obj o) fn = (h, some (JsError.error "Missing name for tap"))) := by
  refine ⟨fun s hs => ?_, fun o ho => ?_⟩
  · simp [Hook._tap, candidate, hs]
  · rcases ho with ho | ho <;> simp [Hook._tap, candidate, ho]

/-- C10, the code at the failing input: `tap` with the options object whose
name is two spaces does not throw; it registers a tap whose name is the two
spaces, although that name is empty after trimming, while the string of
two spaces is rejected. -/
theorem whitespace_object_name_registered :
    jsTrim "  " = ""
    ∧ ((Hook.new [] none).tap (TapOptions.obj { name := some "  " }) 1).2 = none
    ∧ ((Hook.new [] none).tap (TapOptions.obj { name := some "  " }) 1).1.taps
        = [some { type := "sync", fn := 1, name := "  " }]
    ∧ ((Hook.new [] none).tap (TapOptions.str "  ") 1).2
        = some (JsError.error "Missing name for tap")
    ∧ ((Hook.new [] none).tap (TapOptions.str "  ") 1).1.taps = [] := by
  decide

/-! ## The candidate descriptor -/

/-- C11, the claim as stated fails: `tap` with an options object that
carries `type: "async"` and `fn: f9` builds a descriptor whose type is
`"async"` and whose handler is `f9`, not `"sync"` and the handler `f1`
passed to `tap`. -/
theorem options_override_counterexample :
    candidate "sync" (TapOptions.obj overridingOptions) 1
      = Except.ok { type := "async", fn := 9, name := "a" }
    ∧ ((Hook.new [] none).tap (TapOptions.obj overridingOptions) 1).1.taps
      = [some { type := "async", fn := 9, name := "a" }] :=
  ⟨rfl, by decide⟩

/-- C11, amended: for a string whose trimmed form is not empty the candidate
descriptor has the type of the registration method, the handler passed to
it and the trimmed string as name; for an options object with a non-empty
string name, the type and the handler are those of the method unless the
object itself carries a `type` or `fn` field, which then takes their place,
and every other field of the object is carried over verbatim. -/
theorem candidate_fields (type : String) (fn : Fn) :
    (∀ s, jsTrim s ≠ "" →
      candidate type (TapOptions.str s) fn
        = Except.ok { type := type, fn := fn, name := jsTrim s })
    ∧ (∀ (o : OptionsObject) (name : String), o.name = some name → name ≠ "" →
      ∃ c, candidate type (TapOptions.obj o) fn = Except.ok c
        ∧ c.name = name ∧ c.stage = o.stage ∧ c.before = o.before ∧ c.extra = o.extra
        ∧ (o.type = none → c.type = type) ∧ (o.fn = none → c.fn = fn)
        ∧ (∀ t, o.type = some t → c.type = t) ∧ (∀ f, o.fn = some f → c.fn = f)) := by
  refine ⟨fun s hs => ?_, fun o name ho hne => ?_⟩
  · simp [candidate, hs, assignTypeFn]
  · refine ⟨assignTypeFn type fn o name, by simp [candidate, ho, hne], rfl, rfl, rfl, rfl,
      ?_, ?_, ?_, ?_⟩
    · intro h; simp [assignTypeFn, h]
    · intro h; simp [assignTypeFn, h]
    · intro t h; simp [assignTypeFn, h]
    · intro f h; simp [assignTypeFn, h]

theorem candidate_fields_witness :
    jsTrim "  b " ≠ ""
    ∧ candidate "promise" (TapOptions.str "  b ") 2
        = Except.ok { type := "promise", fn := 2, name := jsTrim "  b " }
    ∧ overridingOptions.name = some "a" ∧ "a" ≠ ""
    ∧ ∃ c, candidate "promise" (TapOptions.obj overridingOptions) 2 = Except.ok c
        ∧ c.name = "a" ∧ c.stage = overridingOptions.stage
        ∧ c.before = overridingOptions.before ∧ c.extra = overridingOptions.extra
        ∧ (overridingOptions.type = none → c.type = "promise")
        ∧ (overridingOptions.fn = none → c.fn = 2)
        ∧ (∀ t, overridingOptions.type = some t → c.type = t)
        ∧ (∀ f, overridingOptions.fn = some f → c.fn = f) :=
  ⟨by decide, (candidate_fields "promise" 2).1 "  b " (by decide), rfl, by decide,
    (candidate_fields "promise" 2).2 overridingOptions "a" rfl (by decide)⟩

/-! ## Failed registrations -/

theorem insertLoop_error_typeError (stage : Int) (i : Nat) (taps : List Slot)
    (before : NameSet) (err : JsError)
    (h1 : (insertLoop stage i taps before).2 = Except.error err) : err = JsError.typeError := by
  induction i generalizing taps before with
  | zero => simp [insertLoop] at h1
  | succ i ih =>
    rw [insertLoop] at h1
    cases hx : arrayGet taps i with
    | none =>
      simp only [hx] at h1
      cases h1; rfl
    | some x =>
      simp only [hx] at h1
      cases before with
      | none =>
        simp only at h1
        split at h1
        · exact ih _ _ h1
        · cases h1
      | some names =>
        simp only at h1
        split at h1
        · exact ih _ _ h1
        · split at h1
          · exact ih _ _ h1
          · split at h1
            · exact ih _ _ h1
            · cases h1

/-- The only error `_insert` throws is the `TypeError` of a property read on
`undefined`. -/
theorem Hook.insert_error_cases (h : Hook) (d : Tap) :
    (h._insert d).2 = none ∨ (h._insert d).2 = some JsError.typeError := by
  rw [Hook.insert_error]
  unfold insertInto
  cases hres : insertLoop (itemStage d) h.taps.length h.taps (beforeSet d) with
  | mk t e =>
    cases e with
    | ok i => exact Or.inl rfl
    | error err =>
      right
      have := insertLoop_error_typeError _ _ _ _ err (by rw [hres])
      simp only [this]

theorem candidate_error_cases (type : String) (options : TapOptions) (fn : Fn) (e : JsError)
    (hc : candidate type options fn = Except.error e) :
    e = JsError.error "Invalid tap options" ∨ e = JsError.error "Missing name for tap" := by
  cases options with
  | str s =>
    by_cases hs : jsTrim s = ""
    · simp only [candidate, hs, if_true, Except.error.injEq] at hc
      exact Or.inr hc.symm
    · simp [candidate, hs] at hc
  | obj o =>
    cases hn : o.name with
    | none =>
      simp only [candidate, hn, Except.error.injEq] at hc
      exact Or.inr hc.symm
    | some name =>
      by_cases hs : name = ""
      · simp only [candidate, hn, hs, if_true, Except.error.injEq] at hc
        exact Or.inr hc.symm
      · simp [candidate, hn, hs] at hc
  | null =>
    simp only [candidate, Except.error.injEq] at hc
    exact Or.inl hc.symm
  | other =>
    simp only [candidate, Except.error.injEq] at hc
    exact Or.inl hc.symm

/-- C12: when `tap`, `tapAsync` or `tapPromise` throws an `Error` (the two
the code creates are "Invalid tap options" and "Missing name for tap"),
the hook is exactly what it was before the call, with its taps, its
interceptors and its three call entry points, and no register capability
has been called. -/
theorem failed_registration_no_effect (h : Hook) (r : Registration) (msg : String)
    (hfail : (h.register r).2 = some (JsError.error msg)) :
    (msg = "Invalid tap options" ∨ msg = "Missing name for tap")
    ∧ (h.register r).1 = h
    ∧ (h.register r).1.taps = h.taps
    ∧ (h.register r).1.interceptors = h.interceptors
    ∧ (h.register r).1.call = h.call
    ∧ (h.register r).1.callAsync = h.callAsync
    ∧ (h.register r).1.promise = h.promise
    ∧ h.tapRegisterCalls r.method.type r.options r.fn = [] := by
  rw [Hook.register_eq_tap] at hfail ⊢
  unfold Hook._tap at hfail ⊢
  unfold Hook.tapRegisterCalls
  cases hc : candidate r.method.type r.options r.fn with
  | ok c =>
    rw [hc] at hfail
    simp only at hfail
    rcases Hook.insert_error_cases h (h._runRegisterInterceptors c) with h1 | h1
    · rw [h1] at hfail; cases hfail
    · rw [h1] at hfail; cases hfail
  | error e =>
    rw [hc] at hfail
    simp only [Option.some.injEq] at hfail
    subst hfail
    refine ⟨?_, rfl, rfl, rfl, rfl, rfl, rfl, rfl⟩
    rcases candidate_error_cases _ _ _ _ hc with h1 | h1
    · simp only [JsError.error.injEq] at h1
      exact Or.inl h1
    · simp only [JsError.error.injEq] at h1
      exact Or.inr h1

theorem failed_registration_no_effect_witness :
    (sampleState.register ⟨Method.tapAsync, TapOptions.str "   ", 8⟩).2
      = some (JsError.error "Missing name for tap")
    ∧ ("Missing name for tap" = "Invalid tap options"
        ∨ "Missing name for tap" = "Missing name for tap")
    ∧ (sampleState.register ⟨Method.tapAsync, TapOptions.str "   ", 8⟩).1 = sampleState
    ∧ (sampleState.register ⟨Method.tapAsync, TapOptions.str "   ", 8⟩).1.taps
        = sampleState.taps
    ∧ (sampleState.register ⟨Method.tapAsync, TapOptions.str "   ", 8⟩).1.interceptors
        = sampleState.interceptors
    ∧ (sampleState.register ⟨Method.tapAsync, TapOptions.str "   ", 8⟩).1.call
        = sampleState.call
    ∧ (sampleState.register ⟨Method.tapAsync, TapOptions.str "   ", 8⟩).1.callAsync
        = sampleState.callAsync
    ∧ (sampleState.register ⟨Method.tapAsync, TapOptions.str "   ", 8⟩).1.promise
        = sampleState.promise
    ∧ sampleState.tapRegisterCalls "async" (TapOptions.str "   ") 8 = [] :=
  ⟨by decide,
    failed_registration_no_effect sampleState ⟨Method.tapAsync, TapOptions.str "   ", 8⟩
      "Missing name for tap" (by decide)⟩

/-! ## A failing compiler -/

/-- C13: when `compile` throws while `call` holds its bootstrap delegate,
the error reaches the caller as it was thrown and the hook is unchanged, so
that `call` still holds the delegate and its next invocation calls
`compile` again; the same holds for `callAsync` and for `promise`. -/
theorem compile_failure_keeps_stub (compile : Compiler) (h : Hook) (args args2 : List Val)
    (e : JsError) :
    (h.call = Entry.CALL_DELEGATE →
      compile ⟨h.taps, h.interceptors, h._args, "sync"⟩ = Except.error e →
        (h.invokeCall compile args).result = Except.error e
        ∧ (h.invokeCall compile args).state = h
        ∧ (h.invokeCall compile args).state.call = Entry.CALL_DELEGATE
        ∧ (h.invokeCall compile args).compiles = [⟨h.taps, h.interceptors, h._args, "sync"⟩]
        ∧ ((h.invokeCall compile args).state.invokeCall compile args2).compiles
            = [⟨h.taps, h.interceptors, h._args, "sync"⟩])
    ∧ (h.callAsync = Entry.CALL_ASYNC_DELEGATE →
      compile ⟨h.taps, h.interceptors, h._args, "async"⟩ = Except.error e →
        (h.invokeCallAsync compile args).result = Except.error e
        ∧ (h.invokeCallAsync compile args).state = h
        ∧ (h.invokeCallAsync compile args).state.callAsync = Entry.CALL_ASYNC_DELEGATE
        ∧ (h.invokeCallAsync compile args).compiles
            = [⟨h.taps, h.interceptors, h._args, "async"⟩]
        ∧ ((h.invokeCallAsync compile args).state.invokeCallAsync compile args2).compiles
            = [⟨h.taps, h.interceptors, h._args, "async"⟩])
    ∧ (h.promise = Entry.PROMISE_DELEGATE →
      compile ⟨h.taps, h.interceptors, h._args, "promise"⟩ = Except.error e →
        (h.invokePromise compile args).result = Except.error e
        ∧ (h.invokePromise compile args).state = h
        ∧ (h.invokePromise compile args).state.promise = Entry.PROMISE_DELEGATE
        ∧ (h.invokePromise compile args).compiles
            = [⟨h.taps, h.interceptors, h._args, "promise"⟩]
        ∧ ((h.invokePromise compile args).state.invokePromise compile args2).compiles
            = [⟨h.taps, h.interceptors, h._args, "promise"⟩]) := by
  refine ⟨fun he hf => ?_, fun he hf => ?_, fun he hf => ?_⟩
  · have hc : h._createCall compile "sync" = Except.error e := hf
    have hst : h.invokeCall compile args
        = ⟨h, Except.error e, [h.compileOptions "sync"]⟩ := by
      rw [Hook.invokeCall, he]
      simp only [Entry.invoke, hc]
    rw [hst]
    refine ⟨rfl, rfl, he, rfl, ?_⟩
    show (h.invokeCall compile args2).compiles = _
    rw [Hook.invokeCall, he, Entry.invoke_call_delegate]; rfl
  · have hc : h._createCall compile "async" = Except.error e := hf
    have hst : h.invokeCallAsync compile args
        = ⟨h, Except.error e, [h.compileOptions "async"]⟩ := by
      rw [Hook.invokeCallAsync, he]
      simp only [Entry.invoke, hc]
    rw [hst]
    refine ⟨rfl, rfl, he, rfl, ?_⟩
    show (h.invokeCallAsync compile args2).compiles = _
    rw [Hook.invokeCallAsync, he, Entry.invoke_call_async_delegate]; rfl
  · have hc : h._createCall compile "promise" = Except.error e := hf
    have hst : h.invokePromise compile args
        = ⟨h, Except.error e, [h.compileOptions "promise"]⟩ := by
      rw [Hook.invokePromise, he]
      simp only [Entry.invoke, hc]
    rw [hst]
    refine ⟨rfl, rfl, he, rfl, ?_⟩
    show (h.invokePromise compile args2).compiles = _
    rw [Hook.invokePromise, he, Entry.invoke_promise_delegate]; rfl

theorem compile_failure_keeps_stub_witness :
    sampleHook.callAsync = Entry.CALL_ASYNC_DELEGATE
    ∧ Hook.compile ⟨sampleHook.taps, sampleHook.interceptors, sampleHook._args, "async"⟩
        = Except.error (JsError.error "Abstract: should be overridden")
    ∧ (sampleHook.invokeCallAsync Hook.compile [1]).result
        = Except.error (JsError.error "Abstract: should be overridden")
    ∧ (sampleHook.invokeCallAsync Hook.compile [1]).state = sampleHook
    ∧ (sampleHook.invokeCallAsync Hook.compile [1]).state.callAsync = Entry.CALL_ASYNC_DELEGATE
    ∧ (sampleHook.invokeCallAsync Hook.compile [1]).compiles
        = [⟨sampleHook.taps, sampleHook.interceptors, sampleHook._args, "async"⟩]
    ∧ ((sampleHook.invokeCallAsync Hook.compile [1]).state.invokeCallAsync
          Hook.compile [2]).compiles
        = [⟨sampleHook.taps, sampleHook.interceptors, sampleHook._args, "async"⟩] :=
  ⟨rfl, rfl,
    (compile_failure_keeps_stub Hook.compile sampleHook [1] [2]
      (JsError.error "Abstract: should be overridden")).2.1 rfl rfl⟩

/-! ## The scenario of the specification -/

/-- C15, the claim as stated fails: after the three registrations of the
scenario the names in `taps` are not in the order `[c, b, a]`. -/
theorem scenario_order_counterexample :
    ((Hook.new [] none).registerAll scenarioRegs).taps.map (fun s => s.map Tap.name)
      ≠ [some "c", some "b", some "a"] := by
  decide

/-- C15, amended: on a fresh hook, registering `a` with stage 10, then `b`
with stage -10, then `c` with `before: "a"` leaves the names in `taps` in the
order `[b, c, a]`: once `a` is passed the working set is empty and the scan
stops at `b`, whose stage is not greater than the stage 0 of `c`. -/
theorem scenario_order :
    ((Hook.new [] none).registerAll scenarioRegs).taps.map (fun s => s.map Tap.name)
      = [some "b", some "c", some "a"]
    ∧ ((Hook.new [] none).registerAll scenarioRegs).taps
      = [ some { type := "sync", fn := 2, name := "b", stage := some (-10) },
          some { type := "sync", fn := 3, name := "c", before := Before.str "a" },
          some { type := "sync", fn := 1, name := "a", stage := some 10 } ] := by
  decide

/-! ## A register capability that returns no value -/

/-- C16, the code at the failing input: with `a` and `b` registered,
`intercept` with a register capability that returns no value stores
`undefined` in both elements of `taps`, while `_runRegisterInterceptors`
with the same interceptor returns the descriptor it was given; the next
registration then throws a `TypeError`. -/
theorem silent_register_erases_taps :
    sampleHook.taps = [some sampleB, some sampleA]
    ∧ (sampleHook.intercept silentInterceptor).taps = [none, none]
    ∧ (sampleHook.intercept silentInterceptor)._runRegisterInterceptors sampleC = sampleC
    ∧ ((sampleHook.intercept silentInterceptor).tap (TapOptions.str "c") 3).2
        = some JsError.typeError := by
  decide

/-! ## The scoped view -/

theorem objectAssign_empty (o : OptionsObject) : objectAssign {} o = o := by
  obtain ⟨name, type, fn, stage, before, extra, nameNotString⟩ := o
  simp only [objectAssign, List.filter_nil, List.append_nil]
  cases name <;> cases type <;> cases fn <;> cases stage <;> cases before <;>
    cases nameNotString <;> rfl

/-- A `name` field that is not a string replaces the scoped name: through
the view scoped with `(name: "scoped")`, `tap((name: 42), f)` throws
"Missing name for tap", as the hook's own `tap((name: 42), f)` does. -/
theorem scoped_name_replaced :
    (mergeOptions { name := some "scoped" } (TapOptions.obj numberNameOptions)).name = none
    ∧ ((Hook.new [] none).withOptionsTap { name := some "scoped" }
          (TapOptions.obj numberNameOptions) 1).2
        = some (JsError.error "Missing name for tap")
    ∧ ((Hook.new [] none).tap (TapOptions.obj numberNameOptions) 1).2
        = some (JsError.error "Missing name for tap")
    ∧ ((Hook.new [] none).withOptionsTap { name := some "scoped" }
          (TapOptions.obj { stage := some 3 }) 1).1.taps
        = [some { type := "sync", fn := 1, name := "scoped", stage := some 3 }] := by
  decide

/-- C17, the claim as stated fails: through the view with empty scoped
options, `tap("  Foo  ", f)` registers a tap named `"  Foo  "` where the
hook's own `tap` registers `"Foo"`, and `tap(42, f)` throws "Missing name
for tap" where the hook's own `tap` throws "Invalid tap options". -/
theorem scoped_view_counterexample :
    ((Hook.new [] none).withOptionsTap {} (TapOptions.str "  Foo  ") 1).1.taps
      = [some { type := "sync", fn := 1, name := "  Foo  " }]
    ∧ ((Hook.new [] none).tap (TapOptions.str "  Foo  ") 1).1.taps
      = [some { type := "sync", fn := 1, name := "Foo" }]
    ∧ ((Hook.new [] none).withOptionsTap {} TapOptions.other 1).2
      = some (JsError.error "Missing name for tap")
    ∧ ((Hook.new [] none).tap TapOptions.other 1).2
      = some (JsError.error "Invalid tap options") := by
  decide

/-- C17, amended: through the view with empty scoped options, `tap`,
`tapAsync` and `tapPromise` have the outcome of the hook's own methods, the
same state and the same error, for every options object and for every
string that has no whitespace to trim; for a value that is neither a
string nor a non-null object they throw "Missing name for tap" and leave
the hook unchanged. -/
theorem scoped_view_empty (h : Hook) (fn : Fn) :
    (∀ o : OptionsObject,
      h.withOptionsTap {} (TapOptions.obj o) fn = h.tap (TapOptions.obj o) fn
      ∧ h.withOptionsTapAsync {} (TapOptions.obj o) fn = h.tapAsync (TapOptions.obj o) fn
      ∧ h.withOptionsTapPromise {} (TapOptions.obj o) fn = h.tapPromise (TapOptions.obj o) fn)
    ∧ (∀ s : String, jsTrim s = s →
      h.withOptionsTap {} (TapOptions.str s) fn = h.tap (TapOptions.str s) fn
      ∧ h.withOptionsTapAsync {} (TapOptions.str s) fn = h.tapAsync (TapOptions.str s) fn
      ∧ h.withOptionsTapPromise {} (TapOptions.str s) fn = h.tapPromise (TapOptions.str s) fn)
    ∧ (∀ opt : TapOptions, (opt = TapOptions.null ∨ opt = TapOptions.other) →
      h.withOptionsTap {} opt fn = (h, some (JsError.error "Missing name for tap"))
      ∧ h.withOptionsTapAsync {} opt fn = (h, some (JsError.error "Missing name for tap"))
      ∧ h.withOptionsTapPromise {} opt fn = (h, some (JsError.error "Missing name for tap"))) := by
  refine ⟨fun o => ?_, fun s hs => ?_, fun opt hopt => ?_⟩
  · simp only [Hook.withOptionsTap, Hook.withOptionsTapAsync, Hook.withOptionsTapPromise,
      mergeOptions, objectAssign_empty, and_self]
  · have hc : ∀ type, candidate type (TapOptions.obj (mergeOptions {} (TapOptions.str s))) fn
        = candidate type (TapOptions.str s) fn := by
      intro type
      simp only [mergeOptions, objectAssign_empty, candidate, hs]
    simp only [Hook.withOptionsTap, Hook.withOptionsTapAsync, Hook.withOptionsTapPromise,
      Hook.tap, Hook.tapAsync, Hook.tapPromise, Hook._tap, hc, and_self]
  · have hm : mergeOptions {} opt = {} := by
      rcases hopt with rfl | rfl <;> rfl
    have hc : ∀ type, candidate type (TapOptions.obj {}) fn
        = Except.error (JsError.error "Missing name for tap") := fun _ => rfl
    simp only [Hook.withOptionsTap, Hook.withOptionsTapAsync, Hook.withOptionsTapPromise,
      Hook.tap, Hook.tapAsync, Hook.tapPromise, Hook._tap, hm, hc, and_self]

theorem scoped_view_empty_witness :
    jsTrim "Foo" = "Foo"
    ∧ sampleHook.withOptionsTap {} (TapOptions.str "Foo") 7
        = sampleHook.tap (TapOptions.str "Foo") 7
    ∧ sampleHook.withOptionsTapAsync {} (TapOptions.str "Foo") 7
        = sampleHook.tapAsync (TapOptions.str "Foo") 7
    ∧ sampleHook.withOptionsTapPromise {} (TapOptions.str "Foo") 7
        = sampleHook.tapPromise (TapOptions.str "Foo") 7
    ∧ (TapOptions.null = TapOptions.null ∨ TapOptions.null = TapOptions.other)
    ∧ sampleHook.withOptionsTap {} TapOptions.null 7
        = (sampleHook, some (JsError.error "Missing name for tap")) :=
  ⟨by decide, ((scoped_view_empty sampleHook 7).2.1 "Foo" (by decide)).1,
    ((scoped_view_empty sampleHook 7).2.1 "Foo" (by decide)).2.1,
    ((scoped_view_empty sampleHook 7).2.1 "Foo" (by decide)).2.2, Or.inl rfl,
    ((scoped_view_empty sampleHook 7).2.2 TapOptions.null (Or.inl rfl)).1⟩

/-! ## Taps without a `before` constraint among constrained ones -/

theorem spliced_filter_free (L : List Tap) (d : Tap) (s : Int) :
    ((spliced L d).filter (fun t => decide (t.before = Before.absent))).filter
        (fun t => decide (itemStage t = s))
      = ((L ++ [d]).filter (fun t => decide (t.before = Before.absent))).filter
        (fun t => decide (itemStage t = s)) := by
  by_cases hd : d.before = Before.absent
  · have h1 := spliced_filter L d s hd
    rw [List.filter_filter, List.filter_filter]
    have hcomm : ∀ l : List Tap,
        l.filter (fun a => decide (itemStage a = s) && decide (a.before = Before.absent))
          = (l.filter (fun t => decide (itemStage t = s))).filter
              (fun t => decide (t.before = Before.absent)) := by
      intro l
      rw [List.filter_filter]
      congr 1
      funext a
      exact Bool.and_comm _ _
    rw [hcomm, hcomm, h1]
  · have h2 : (spliced L d).filter (fun t => decide (t.before = Before.absent))
        = (L ++ [d]).filter (fun t => decide (t.before = Before.absent)) := by
      have h3 : L.filter (fun t => decide (t.before = Before.absent))
          = (L.take (stopIndex L d)).filter (fun t => decide (t.before = Before.absent))
            ++ (L.drop (stopIndex L d)).filter (fun t => decide (t.before = Before.absent)) := by
        rw [← List.filter_append, List.take_append_drop]
      simp only [spliced, List.filter_append, List.filter_cons, hd, decide_False,
        Bool.false_eq_true, if_false, List.filter_nil, List.append_nil]
      exact h3.symm
    rw [h2]

theorem splicedAll_filter_free (L : List Tap) (ds : List Tap) (s : Int) :
    ((splicedAll L ds).filter (fun t => decide (t.before = Before.absent))).filter
        (fun t => decide (itemStage t = s))
      = ((L ++ ds).filter (fun t => decide (t.before = Before.absent))).filter
        (fun t => decide (itemStage t = s)) := by
  induction ds generalizing L with
  | nil => simp [splicedAll]
  | cons d ds ih =>
    have := ih (spliced L d)
    simp only [splicedAll, List.foldl_cons] at this ⊢
    rw [this]
    simp only [List.filter_append]
    rw [spliced_filter_free L d s]
    have hcons : d :: ds = [d] ++ ds := rfl
    rw [hcons]
    simp only [List.filter_append, List.append_assoc]

/-- C18: after any sequence of `tap`/`tapAsync`/`tapPromise` calls on a fresh
hook, every tap placed after a tap `B` that declares no `before` constraint
has a stage not smaller than the stage of `B`, whatever `before` constraints
the other taps declare; and the taps without a `before` constraint, taken
in the order of `taps`, have non-decreasing stages, are exactly the
registered descriptors without a `before` constraint and, for every stage,
appear in registration order: their stable sort by stage. -/
theorem free_taps_sorted (args : List String) (name : Option String)
    (rs : List Registration) :
    ∃ S : List Tap, ((Hook.new args name).registerAll rs).taps = S.map some
      ∧ S.Pairwise (fun b t => b.before = Before.absent → itemStage b ≤ itemStage t)
      ∧ (S.filter (fun t => decide (t.before = Before.absent))).Pairwise
          (fun a b => itemStage a ≤ itemStage b)
      ∧ (S.filter (fun t => decide (t.before = Before.absent))).Perm
          ((descriptors rs).filter (fun t => decide (t.before = Before.absent)))
      ∧ ∀ s : Int,
          (S.filter (fun t => decide (t.before = Before.absent))).filter
              (fun t => decide (itemStage t = s))
            = ((descriptors rs).filter (fun t => decide (t.before = Before.absent))).filter
              (fun t => decide (itemStage t = s)) := by
  have hp := splicedAll_pairwise [] (descriptors rs) List.Pairwise.nil
  have hperm : (splicedAll [] (descriptors rs)).Perm (descriptors rs) := by
    simpa using splicedAll_perm [] (descriptors rs)
  refine ⟨splicedAll [] (descriptors rs), Hook.registerAll_new_taps args name rs, hp, ?_,
    hperm.filter _, ?_⟩
  · refine (hp.filter _).imp_of_mem ?_
    intro a b ha _ hab
    have : a.before = Before.absent := by
      have := (List.mem_filter.mp ha).2
      simpa using this
    exact hab this
  · intro s
    simpa using splicedAll_filter_free [] (descriptors rs) s

/-! ## The scan and the names of the working set -/

theorem stopIndex_le_last_named (L : List Tap) (A B : Tap) (n : String) (j : Nat)
    (hn : A.namesBefore n) (hB : L[j]? = some B) (hname : B.name = n)
    (hlast : ∀ j2 t, j < j2 → L[j2]? = some t → t.name ≠ n) :
    stopIndex L A ≤ j := by
  obtain ⟨names, hb, hmem⟩ := (namesBefore_iff A n).mp hn
  have hjlt : j < L.length := (List.getElem?_eq_some.mp hB).1
  have hsplit : L.reverse = (L.drop (j + 1)).reverse ++ B :: (L.take j).reverse := by
    have h1 : L = L.take j ++ B :: L.drop (j + 1) := by
      have hBj : L[j] = B := (List.getElem?_eq_some.mp hB).2
      conv_lhs => rw [← List.take_append_drop j L, List.drop_eq_getElem_cons hjlt, hBj]
    conv_lhs => rw [h1]
    simp
  have hpass := stopRev_passes (itemStage A) (L.drop (j + 1)).reverse B (L.take j).reverse
    names (by rw [hname]; exact hmem) (by
      intro y hy
      rw [List.mem_reverse] at hy
      obtain ⟨m, hm⟩ := List.mem_iff_getElem?.mp hy
      rw [List.getElem?_drop] at hm
      rw [hname]
      exact hlast (j + 1 + m) y (by omega) hm)
  rw [← hsplit, ← hb] at hpass
  have hlen : (L.take j).reverse.length = j := by
    simp only [List.length_reverse, List.length_take]; omega
  rw [hlen] at hpass
  exact hpass

theorem nodup_names_getElem? (L : List Tap) (hnd : (L.map Tap.name).Nodup) (j j2 : Nat)
    (B t : Tap) (hj : j < j2) (hB : L[j]? = some B) (ht : L[j2]? = some t) :
    t.name ≠ B.name := by
  have hp : (L.map Tap.name).Pairwise (fun a b => a ≠ b) := hnd
  obtain ⟨h1, rfl⟩ := List.getElem?_eq_some.mp hB
  obtain ⟨h2, rfl⟩ := List.getElem?_eq_some.mp ht
  have := List.pairwise_iff_getElem.mp hp j j2 (by simpa using h1) (by simpa using h2) hj
  simp only [List.getElem_map] at this
  exact fun h => this h.symm

/-- C19: the scan of `_insert` does not stop while the working set holds a
name it has not met: for every name `n` of the `before` constraint of `A`
borne by a tap of the array, `A` is stored at an index not greater than the
index of the last tap named `n`, which is then found one place to the
right, after `A`; so when the names of the taps are pairwise distinct, `A`
is stored before every tap it names. -/
theorem insert_passes_named (h : Hook) (L : List Tap) (A : Tap) (hL : h.taps = L.map some) :
    (∀ (n : String) (j : Nat) (B : Tap), A.namesBefore n → L[j]? = some B → B.name = n →
        (∀ j2 t, j < j2 → L[j2]? = some t → t.name ≠ n) →
          insertIndex h.taps A ≤ j
          ∧ arrayGet (h._insert A).1.taps (insertIndex h.taps A) = some A
          ∧ arrayGet (h._insert A).1.taps (j + 1) = some B)
    ∧ ((L.map Tap.name).Nodup →
        ∀ (j : Nat) (B : Tap), L[j]? = some B → A.namesBefore B.name →
          insertIndex h.taps A ≤ j
          ∧ arrayGet (h._insert A).1.taps (insertIndex h.taps A) = some A
          ∧ arrayGet (h._insert A).1.taps (j + 1) = some B) := by
  have htaps : (h._insert A).1.taps = (spliced L A).map some := by
    rw [Hook.insert_taps, hL, insertInto_map_some_fst]
  have hidx : insertIndex h.taps A = stopIndex L A := by rw [hL, insertIndex_map_some]
  have key : ∀ (n : String) (j : Nat) (B : Tap), A.namesBefore n → L[j]? = some B →
      B.name = n → (∀ j2 t, j < j2 → L[j2]? = some t → t.name ≠ n) →
        insertIndex h.taps A ≤ j
        ∧ arrayGet (h._insert A).1.taps (insertIndex h.taps A) = some A
        ∧ arrayGet (h._insert A).1.taps (j + 1) = some B := by
    intro n j B hn hB hname hlast
    have hk := stopIndex_le_last_named L A B n j hn hB hname hlast
    have hshift : shiftPos (stopIndex L A) j = j + 1 := by
      simp only [shiftPos]
      rw [if_neg (by omega)]
    rw [htaps, hidx]
    simp only [arrayGet_map_some]
    refine ⟨hk, spliced_getElem?_stop L A, ?_⟩
    rw [← hshift, spliced_getElem?_shift]; exact hB
  refine ⟨key, fun hnd j B hB hn => ?_⟩
  exact key B.name j B hn hB rfl
    (fun j2 t hj ht => nodup_names_getElem? L hnd j j2 B t hj hB ht)

theorem insert_passes_named_witness :
    sampleHook.taps = [sampleB, sampleA].map some
    ∧ ([sampleB, sampleA].map Tap.name).Nodup
    ∧ [sampleB, sampleA][1]? = some sampleA
    ∧ sampleC.namesBefore sampleA.name
    ∧ insertIndex sampleHook.taps sampleC ≤ 1
    ∧ arrayGet (sampleHook._insert sampleC).1.taps (insertIndex sampleHook.taps sampleC)
        = some sampleC
    ∧ arrayGet (sampleHook._insert sampleC).1.taps (1 + 1) = some sampleA :=
  ⟨by decide, by decide, by decide, by simp [Tap.namesBefore, sampleC, sampleA],
    (insert_passes_named sampleHook [sampleB, sampleA] sampleC (by decide)).2 (by decide)
      1 sampleA (by decide) (by simp [Tap.namesBefore, sampleC, sampleA])⟩

/-! ## Rewriting that keeps the fields the scan reads -/

theorem stopRev_map (f : Tap → Tap)
    (hf : ∀ t, (f t).name = t.name ∧ (f t).stage = t.stage ∧ (f t).before = t.before)
    (stage : Int) (r : List Tap) (before : NameSet) :
    stopRev stage (r.map f) before = stopRev stage r before := by
  induction r generalizing before with
  | nil => rfl
  | cons x more ih =>
    have hx : xStageOf (f x) = xStageOf x := by
      unfold xStageOf; rw [(hf x).2.1]
    cases before with
    | none => simp only [List.map_cons, stopRev, hx, ih, List.length_map]
    | some names =>
      simp only [List.map_cons, stopRev, hx, ih, List.length_map, (hf x).1]

theorem stopIndex_map (f : Tap → Tap)
    (hf : ∀ t, (f t).name = t.name ∧ (f t).stage = t.stage ∧ (f t).before = t.before)
    (L : List Tap) (d : Tap) : stopIndex (L.map f) (f d) = stopIndex L d := by
  have h1 : itemStage (f d) = itemStage d := by
    unfold itemStage; rw [(hf d).2.1]
  have h2 : beforeSet (f d) = beforeSet d := by
    unfold beforeSet; rw [(hf d).2.2]
  unfold stopIndex
  rw [h1, h2, ← List.map_reverse, stopRev_map f hf]

theorem spliced_map (f : Tap → Tap)
    (hf : ∀ t, (f t).name = t.name ∧ (f t).stage = t.stage ∧ (f t).before = t.before)
    (L : List Tap) (d : Tap) : spliced (L.map f) (f d) = (spliced L d).map f := by
  unfold spliced
  rw [stopIndex_map f hf]
  simp only [List.map_append, List.map_cons, List.map_take, List.map_drop]

theorem splicedAll_map (f : Tap → Tap)
    (hf : ∀ t, (f t).name = t.name ∧ (f t).stage = t.stage ∧ (f t).before = t.before)
    (L : List Tap) (ds : List Tap) :
    splicedAll (L.map f) (ds.map f) = (splicedAll L ds).map f := by
  induction ds generalizing L with
  | nil => rfl
  | cons d ds ih =>
    simp only [splicedAll, List.map_cons, List.foldl_cons] at ih ⊢
    rw [spliced_map f hf, ih]

/-- A register capability that keeps the ordering fields acts on
descriptors as a function that keeps them. -/
theorem keeps_as_function (r : Slot → Slot)
    (hr : ∀ t : Tap, ∃ t2, r (some t) = some t2
      ∧ t2.name = t.name ∧ t2.stage = t.stage ∧ t2.before = t.before) :
    ∃ f : Tap → Tap, (∀ t, r (some t) = some (f t))
      ∧ ∀ t, (f t).name = t.name ∧ (f t).stage = t.stage ∧ (f t).before = t.before := by
  refine ⟨fun t => (r (some t)).getD t, fun t => ?_, fun t => ?_⟩
  · obtain ⟨t2, h1, -⟩ := hr t
    simp only [h1, Option.getD_some]
  · obtain ⟨t2, h1, h2⟩ := hr t
    simp only [h1, Option.getD_some]
    exact h2

theorem Entry.invoke_taps (compile : Compiler) (e : Entry) (h : Hook) (args : List Val) :
    (e.invoke compile h args).state.taps = h.taps := by
  cases e with
  | compiled f => rfl
  | CALL_DELEGATE =>
    simp only [Entry.invoke]
    cases h._createCall compile "sync" <;> rfl
  | CALL_ASYNC_DELEGATE =>
    simp only [Entry.invoke]
    cases h._createCall compile "async" <;> rfl
  | PROMISE_DELEGATE =>
    simp only [Entry.invoke]
    cases h._createCall compile "promise" <;> rfl

/-- One registration call on an array of descriptors, and its entry in the
list of registered descriptors. -/
theorem Hook.register_ledger (h : Hook) (r : Registration) (ds0 : List Tap)
    (ht : h.taps = (splicedAll [] ds0).map some) :
    ∃ ds1 : List Tap,
      (match (h.register r).2, r.descriptor with
        | none, some c => ds0.map some ++ [some (h._runRegisterInterceptors c)]
        | _, _ => ds0.map some) = ds1.map some
      ∧ (h.register r).1.taps = (splicedAll [] ds1).map some := by
  have hst := Hook.register_state h r
  cases hd : r.descriptor with
  | none =>
    rw [hd] at hst
    refine ⟨ds0, ?_, by rw [hst]; exact ht⟩
    cases (h.register r).2 <;> rfl
  | some c =>
    rw [hd] at hst
    have herr : (h.register r).2 = none := by
      rw [Hook.register_eq_tap]
      unfold Hook._tap
      have hc : candidate r.method.type r.options r.fn = Except.ok c := by
        unfold Registration.descriptor Registration.candidate at hd
        cases hcand : candidate r.method.type r.options r.fn with
        | error e => rw [hcand] at hd; cases hd
        | ok c2 =>
          rw [hcand] at hd
          simp only [Option.some.injEq] at hd
          rw [hd]
      rw [hc]
      simp only
      rw [Hook.insert_error, ht, insertInto_map_some]
    refine ⟨ds0 ++ [h._runRegisterInterceptors c], ?_, ?_⟩
    · rw [herr]; simp
    · rw [hst]
      simp only
      rw [Hook.insert_taps, ht, insertInto_map_some_fst]
      simp only [splicedAll, List.foldl_append, List.foldl_cons, List.foldl_nil]
      rfl

/-- One method call keeps `taps` equal to the replay of the registered
descriptors, when the register capability of an added interceptor keeps
the ordering fields. -/
theorem Hook.step_ledger (compile : Compiler) (h : Hook) (op : Op) (ds0 : List Tap)
    (ht : h.taps = (splicedAll [] ds0).map some)
    (hkeep : ∀ i, op = Op.intercept i → i.keepsOrderFields) :
    ∃ ds1 : List Tap, h.stepLedger (ds0.map some) op = ds1.map some
      ∧ (h.step compile op).1.taps = (splicedAll [] ds1).map some := by
  cases op with
  | tap o fn => exact Hook.register_ledger h ⟨Method.tap, o, fn⟩ ds0 ht
  | tapAsync o fn => exact Hook.register_ledger h ⟨Method.tapAsync, o, fn⟩ ds0 ht
  | tapPromise o fn => exact Hook.register_ledger h ⟨Method.tapPromise, o, fn⟩ ds0 ht
  | call a => exact ⟨ds0, rfl, by rw [← ht]; exact Entry.invoke_taps compile _ h a⟩
  | callAsync a => exact ⟨ds0, rfl, by rw [← ht]; exact Entry.invoke_taps compile _ h a⟩
  | promise a => exact ⟨ds0, rfl, by rw [← ht]; exact Entry.invoke_taps compile _ h a⟩
  | intercept i =>
    cases hr : i.register with
    | none =>
      refine ⟨ds0, by simp only [Hook.stepLedger, hr], ?_⟩
      simp only [Hook.step, Hook.intercept, hr]
      exact ht
    | some r =>
      obtain ⟨f, hf1, hf2⟩ := keeps_as_function r (hkeep i rfl r hr)
      have hmap : ∀ l : List Tap, (l.map some).map r = (l.map f).map some := by
        intro l
        simp only [List.map_map]
        apply List.map_congr_left
        intro t _
        exact hf1 t
      refine ⟨ds0.map f, by simp only [Hook.stepLedger, hr]; exact hmap ds0, ?_⟩
      show (h.intercept i).taps = _
      rw [Hook.intercept_taps_register h i r hr, ht, hmap]
      have := splicedAll_map f hf2 [] ds0
      simp only [List.map_nil] at this
      rw [this]

theorem Hook.run_ledger (compile : Compiler) (h : Hook) (ops : List Op) (ds0 : List Tap)
    (ht : h.taps = (splicedAll [] ds0).map some)
    (hkeep : ∀ op ∈ ops, ∀ i, op = Op.intercept i → i.keepsOrderFields) :
    ∃ ds : List Tap, Hook.runLedger compile h (ds0.map some) ops = ds.map some
      ∧ (h.run compile ops).taps = (splicedAll [] ds).map some := by
  induction ops generalizing h ds0 with
  | nil => exact ⟨ds0, rfl, ht⟩
  | cons op ops ih =>
    obtain ⟨ds1, h1, h2⟩ := Hook.step_ledger compile h op ds0 ht
      (hkeep op (List.mem_cons_self _ _))
    have := ih (h.step compile op).1 ds1 h2
      (fun o ho => hkeep o (List.mem_cons_of_mem _ ho))
    simp only [Hook.runLedger, h1]
    exact this

/-- C14, the claim as stated fails: `a` and `b` are registered and an
interceptor whose register capability sets the stage of `a` to 10 is added;
`taps` then holds `a` (stage 10) before `b`, while inserting the stored
descriptors in registration order into an empty array puts `b` first. -/
theorem restage_breaks_replay :
    ((Hook.new [] none).run sampleCompile restageOps).taps
      = [ some { type := "sync", fn := 1, name := "a", stage := some 10 },
          some { type := "sync", fn := 2, name := "b" } ]
    ∧ Hook.runLedger sampleCompile (Hook.new [] none) [] restageOps
      = [ some { type := "sync", fn := 1, name := "a", stage := some 10 },
          some { type := "sync", fn := 2, name := "b" } ]
    ∧ insertAll []
        [ { type := "sync", fn := 1, name := "a", stage := some 10 },
          { type := "sync", fn := 2, name := "b" } ]
      = [ some { type := "sync", fn := 2, name := "b" },
          some { type := "sync", fn := 1, name := "a", stage := some 10 } ] := by
  decide

/-- C14, amended: in every state reached from a fresh hook by a sequence of
method calls in which the register capability of every added interceptor
returns, for each descriptor, a descriptor with the same `name`, `stage` and
`before`, the descriptors present (as currently stored, in registration
order) are all defined, and `taps` is the array obtained by inserting them
in that order, one at a time, into an empty array with `_insert`. -/
theorem replay_invariant (compile : Compiler) (args : List String) (name : Option String)
    (ops : List Op)
    (hkeep : ∀ op ∈ ops, ∀ i, op = Op.intercept i → i.keepsOrderFields) :
    ∃ ds : List Tap, Hook.runLedger compile (Hook.new args name) [] ops = ds.map some
      ∧ ((Hook.new args name).run compile ops).taps = insertAll [] ds
      ∧ ((Hook.new args name).run compile ops).taps.Perm (ds.map some) := by
  obtain ⟨ds, h1, h2⟩ := Hook.run_ledger compile (Hook.new args name) ops [] rfl hkeep
  refine ⟨ds, h1, ?_, ?_⟩
  · rw [h2]
    exact (insertAll_map_some [] ds).symm
  · rw [h2]
    have := splicedAll_perm [] ds
    simp only [List.nil_append] at this
    exact this.map some

theorem tagInterceptor_keepsOrderFields : tagInterceptor.keepsOrderFields := by
  intro register hr t
  have : register = tagRegister := by
    have h1 : tagInterceptor.register = some tagRegister := rfl
    rw [h1] at hr
    exact (Option.some.inj hr).symm
  subst this
  exact ⟨_, rfl, rfl, rfl, rfl⟩

theorem taggingOps_keep :
    ∀ op ∈ taggingOps, ∀ i, op = Op.intercept i → i.keepsOrderFields := by
  intro op hop i hi
  subst hi
  simp only [taggingOps, List.mem_cons, List.mem_singleton, List.not_mem_nil, or_false,
    Op.intercept.injEq] at hop
  rcases hop with h | h | h | h
  · cases h
  · rw [h]; exact tagInterceptor_keepsOrderFields
  · cases h
  · cases h

theorem replay_invariant_witness :
    (∀ op ∈ taggingOps, ∀ i, op = Op.intercept i → i.keepsOrderFields)
    ∧ ∃ ds : List Tap,
        Hook.runLedger sampleCompile (Hook.new ["x"] none) [] taggingOps = ds.map some
        ∧ ((Hook.new ["x"] none).run sampleCompile taggingOps).taps = insertAll [] ds
        ∧ ((Hook.new ["x"] none).run sampleCompile taggingOps).taps.Perm (ds.map some) :=
  ⟨taggingOps_keep, replay_invariant sampleCompile ["x"] none taggingOps taggingOps_keep⟩

/-! ## Retroactive and registration-time rewriting -/

theorem Hook.intercept_taps_none (h : Hook) (i : Interceptor) (hr : i.register = none) :
    (h.intercept i).taps = h.taps := by
  unfold Hook.intercept
  simp only [hr]
  rfl


theorem runRegisterLoop_single (i : Interceptor) (r : Slot → Slot) (f : Tap → Tap)
    (hr : i.register = some r) (hf : ∀ t, r (some t) = some (f t)) (c : Tap) :
    runRegisterLoop [i] c = f c := by
  simp only [runRegisterLoop, hr, hf]

/-- C20, the claim as stated fails: the tagging register capability of
`inheritedInterceptor` is inherited from its prototype, so the copy that
`intercept` stores has no register capability.  Registering the three taps
of the scenario and then adding the interceptor tags the three stored
descriptors; adding the interceptor first and then registering leaves them
untagged. -/
theorem inherited_register_counterexample :
    inheritedInterceptor.keepsOrderFields
    ∧ (((Hook.new [] none).registerAll scenarioRegs).intercept inheritedInterceptor).taps
      = [ some { type := "sync", fn := 2, name := "b", stage := some (-10),
                 extra := [("intercepted", "true")] },
          some { type := "sync", fn := 3, name := "c", before := Before.str "a",
                 extra := [("intercepted", "true")] },
          some { type := "sync", fn := 1, name := "a", stage := some 10,
                 extra := [("intercepted", "true")] } ]
    ∧ (((Hook.new [] none).intercept inheritedInterceptor).registerAll scenarioRegs).taps
      = [ some { type := "sync", fn := 2, name := "b", stage := some (-10) },
          some { type := "sync", fn := 3, name := "c", before := Before.str "a" },
          some { type := "sync", fn := 1, name := "a", stage := some 10 } ]
    ∧ (((Hook.new [] none).registerAll scenarioRegs).intercept inheritedInterceptor).taps
      ≠ (((Hook.new [] none).intercept inheritedInterceptor).registerAll scenarioRegs).taps := by
  refine ⟨?_, by decide, by decide, by decide⟩
  intro register hr t
  have : register = tagRegister := by
    have h1 : inheritedInterceptor.register = some tagRegister := rfl
    rw [h1] at hr
    exact (Option.some.inj hr).symm
  subst this
  exact ⟨_, rfl, rfl, rfl, rfl⟩

/-- C20, amended: for an interceptor whose register capability is an own
property of the interceptor object and returns, for every descriptor, a
descriptor with the same `name`, `stage` and `before`, and for every
sequence of registration calls on a fresh hook, making the calls and then
`intercept(i)` leaves the same `taps` array, and the same interceptors, as
`intercept(i)` followed by the same calls. -/
theorem intercept_commutes (args : List String) (name : Option String) (i : Interceptor)
    (rs : List Registration) (hown : i.registerOwn = true) (hkeep : i.keepsOrderFields) :
    (((Hook.new args name).registerAll rs).intercept i).taps
      = (((Hook.new args name).intercept i).registerAll rs).taps
    ∧ (((Hook.new args name).registerAll rs).intercept i).interceptors
      = (((Hook.new args name).intercept i).registerAll rs).interceptors := by
  have hint : ((Hook.new args name).registerAll rs).interceptors = [] :=
    (Hook.registerAll_taps (Hook.new args name) rs).2
  have hR := Hook.registerAll_taps ((Hook.new args name).intercept i) rs
  have hI : ((Hook.new args name).intercept i).interceptors = [i] := by
    rw [Hook.intercept_interceptors, Interceptor.copy_of_own i hown]; rfl
  refine ⟨?_, ?_⟩
  · rw [hR.1, hI]
    cases hr : i.register with
    | none =>
      have h0 : ((Hook.new args name).intercept i).taps = [] := by
        simp only [Hook.intercept, hr]; rfl
      have hl : (((Hook.new args name).registerAll rs).intercept i).taps
          = ((Hook.new args name).registerAll rs).taps :=
        Hook.intercept_taps_none _ i hr
      have hid : (descriptors rs).map (runRegisterLoop [i]) = descriptors rs := by
        have : runRegisterLoop [i] = id := by
          funext c
          simp only [runRegisterLoop, hr, id]
        rw [this, List.map_id]
      rw [hl, h0, hid]
      rw [Hook.registerAll_new_taps]
      exact (insertAll_map_some [] (descriptors rs)).symm
    | some r =>
      obtain ⟨f, hf1, hf2⟩ := keeps_as_function r (hkeep r hr)
      have h0 : ((Hook.new args name).intercept i).taps = [] := by
        rw [Hook.intercept_taps_register _ i r hr]; rfl
      have hmapf : (descriptors rs).map (runRegisterLoop [i]) = (descriptors rs).map f := by
        apply List.map_congr_left
        intro c _
        exact runRegisterLoop_single i r f hr hf1 c
      rw [Hook.intercept_taps_register _ i r hr, Hook.registerAll_new_taps, h0, hmapf]
      have h1 := insertAll_map_some [] ((descriptors rs).map f)
      simp only [List.map_nil] at h1
      rw [h1]
      have h2 := splicedAll_map f hf2 [] (descriptors rs)
      simp only [List.map_nil] at h2
      rw [h2]
      simp only [List.map_map]
      apply List.map_congr_left
      intro t _
      exact hf1 t
  · rw [hR.2, hI]
    have := Hook.intercept_interceptors ((Hook.new args name).registerAll rs) i
    rw [this, hint, Interceptor.copy_of_own i hown]; rfl

theorem intercept_commutes_witness :
    tagInterceptor.registerOwn = true
    ∧ tagInterceptor.keepsOrderFields
    ∧ (((Hook.new ["x"] none).registerAll scenarioRegs).intercept tagInterceptor).taps
      = (((Hook.new ["x"] none).intercept tagInterceptor).registerAll scenarioRegs).taps
    ∧ (((Hook.new ["x"] none).registerAll scenarioRegs).intercept tagInterceptor).interceptors
      = (((Hook.new ["x"] none).intercept tagInterceptor).registerAll scenarioRegs).interceptors :=
  ⟨rfl, tagInterceptor_keepsOrderFields,
    intercept_commutes ["x"] none tagInterceptor scenarioRegs rfl
      tagInterceptor_keepsOrderFields⟩

end Tapable
